import Mathlib

/-!
Shallow embedding of the hierarchical state machine runtime of the
MCU-tools repository (src/src/statecharts_classbased/StateChart.h,
StateChart.cpp) and of the event queue (VecQueue.h, src/unnamed/part_013).

The repository files contain two generations of the `FsmBaseMember`
implementation.  The copy embedded at the end of
src/src/statecharts_classbased/test.cpp is the one that matches the
current StateChart.h (it defines `FsmBaseMember::parent` and
`FsmBaseMember::activeState`, which the header declares, and it does not
redefine `FsmBaseMember::transition`, which the header already defines
inline).  Definitions below are translated from that copy; the shared
routines (`doTransition`, `doEntry`, `doExit`, `setupTransition`,
`addStateBase`) are textually identical in both copies.

Modelling conventions:
* C++ `int` state identifiers become `Int`; the reserved null id is `-1`
  (`FsmStaticData::nullStateId`).
* `const StateInfo*` pointers into the `m_states` vector are represented
  by the state id they point at; pointer equality between two valid
  `StateInfo*` coincides with id equality because `m_states` holds one
  slot per id.
* `while` loops are expressed as fuel-indexed recursions returning
  `Option`; `none` means the fuel ran out or the C++ would have performed
  undefined behaviour (null-pointer dereference, out-of-range vector
  index).  All theorems produce `some` results.
* Entry actions (state constructors) and exit actions (destructors) are
  observed through an action trace (`Action.enter` / `Action.exit`);
  delivery of an event to the handler walk is observed as
  `Action.dispatch`.
* Event handlers are modelled by a function giving, per state id and
  event: whether the event was handled, the final argument of the
  handler's `transition` calls (if any), and the list of events the
  handler posts via `postEvent` (applied in order).
-/

namespace StateChart

/-- Events: the test fixtures in the repository instantiate the `Event`
template parameter with `int`; we fix that instantiation. -/
abbrev Event := Int

/-- State identifiers (`int` in C++). -/
abbrev StateId := Int

/-- `FsmStaticData::nullStateId = -1`. -/
def nullStateId : StateId := -1

/-- `FsmStaticData::StateInfo`: per-state metadata (parent id and level).
The `m_maker` factory is represented implicitly: the state id itself
identifies which state object the factory constructs. -/
structure StateInfo where
  parentId : StateId
  level : Nat
deriving DecidableEq, Repr

/-- `FsmStaticData`: the static state-description table.  `states` models
the `m_states` vector (`none` = slot whose `m_maker` is null, i.e. not
registered); `objectSizes` models `m_objectSizes`. -/
structure FsmStaticData where
  states : List (Option StateInfo)
  objectSizes : List Nat
deriving DecidableEq, Repr

/-- `FsmStaticData::findState(int)`: returns null when the slot holds no
maker.  A negative or out-of-range index is undefined behaviour on the
C++ `std::vector`; we model it as an unregistered id. -/
def FsmStaticData.findState (d : FsmStaticData) (id : StateId) : Option StateInfo :=
  if id < 0 then none
  else (d.states.getD id.toNat none)

/-- `FsmStaticData::addStateBase(stateId, parentId, size, fkn)`
(StateChart.cpp).  Dereferencing an unregistered parent is undefined
behaviour (`findState` returns null and `parent->m_level` is read), hence
`none`; so is writing `m_states[stateId]` out of range. -/
def FsmStaticData.addStateBase (d : FsmStaticData) (stateId parentId : StateId)
    (size : Nat) : Option FsmStaticData :=
  match (if stateId ≠ parentId then (d.findState parentId).map (fun p => p.level + 1)
         else some 0) with
  | none => none
  | some level =>
    let sizes := d.objectSizes ++ List.replicate (level + 1 - d.objectSizes.length) 0
    let sizes := if sizes.getD level 0 < size then sizes.set level size else sizes
    if 0 ≤ stateId ∧ stateId.toNat < d.states.length then
      some { states := d.states.set stateId.toNat (some ⟨parentId, level⟩),
             objectSizes := sizes }
    else none

/-- Registration-time errors surfaced by `FsmSetup::addState`. -/
inductive RegError where
  | ReservedId
deriving DecidableEq, Repr

/-- `FsmSetup::addState<State, ParentState>` (StateChart.h): the
`static_assert` rejects the reserved null id at compile time, then the
call forwards to `addStateBase`. -/
def FsmStaticData.addState (d : FsmStaticData) (stateId parentId : StateId)
    (size : Nat) : Except RegError (Option FsmStaticData) :=
  if stateId = nullStateId then .error .ReservedId
  else .ok (d.addStateBase stateId parentId size)

/-- `VecQueue<El>` (VecQueue.h): a queue on a vector with a head index. -/
structure VecQueue (α : Type) where
  store : List α
  headPos : Nat
deriving DecidableEq, Repr

namespace VecQueue

/-- `VecQueue::empty()`. -/
def empty (q : VecQueue α) : Bool := q.store.isEmpty

/-- `VecQueue::size()`. -/
def size (q : VecQueue α) : Nat := q.store.length - q.headPos

/-- `VecQueue::front()` (`m_store[m_headPos]`; out-of-range is undefined
behaviour, modelled as `none`). -/
def front? (q : VecQueue α) : Option α := q.store.get? q.headPos

/-- `VecQueue::checkRenormalization()`. -/
def checkRenormalization (q : VecQueue α) : VecQueue α :=
  if q.headPos > q.store.length / 2 then
    { store := q.store.drop q.headPos, headPos := 0 }
  else q

/-- `VecQueue::push` with explicit `normLimit` template argument. -/
def pushN (q : VecQueue α) (el : α) (normLimit : Nat) : VecQueue α :=
  let q := if q.store.length > normLimit then q.checkRenormalization else q
  { q with store := q.store ++ [el] }

/-- `VecQueue::push` at the default `normLimit = 15`. -/
def push (q : VecQueue α) (el : α) : VecQueue α := q.pushN el 15

/-- `VecQueue::check_empty()`. -/
def check_empty (q : VecQueue α) : VecQueue α :=
  if q.headPos = q.store.length then { store := [], headPos := 0 } else q

/-- `VecQueue::pop()`. -/
def pop (q : VecQueue α) : VecQueue α :=
  check_empty { q with headPos := q.headPos + 1 }

end VecQueue

/-- Observable actions of a run: state exits (destructor of the object
living at a level), state entries (placement construction), and delivery
of an event to the handler walk. -/
inductive Action where
  | exit (id : StateId)
  | enter (id : StateId)
  | dispatch (ev : Event)
deriving DecidableEq, Repr

/-- The mutable part of `FsmBaseMember` plus the event queue of
`FsmBaseEvent`.  `stackI` models `m_stackFrames[l].m_stateInfo` (id of the
info pointer stored at level `l`; `nullStateId` for null), `objs` models
`m_stackFrames[l].m_activeState` (id of the state object constructed at
level `l`, `none` when the slot is empty), `currentInfo` models
`m_currentInfo`, `nextState` models `m_nextState`, `queue` models
`m_eventQueue`. -/
structure Machine where
  stackI : List StateId
  objs : List (Option StateId)
  currentInfo : Option StateId
  nextState : StateId
  queue : VecQueue Event
deriving DecidableEq, Repr

/-- Total list read with an explicit default, used to model indexing into
the per-level frame vector. -/
def dget (dflt : α) : List α → Nat → α
  | [], _ => dflt
  | a :: _, 0 => a
  | _ :: as, n + 1 => dget dflt as n

/-- Read of a `m_stateInfo` slot: a pointer that was never written is
null, represented by `nullStateId`. -/
abbrev lgetI (l : List StateId) (i : Nat) : StateId := dget nullStateId l i

/-- Read of a `m_activeState` slot: default `none` (empty slot). -/
abbrev ogetI (l : List (Option StateId)) (i : Nat) : Option StateId := dget none l i

/-- `FsmBaseMember::doExit(const StateInfo*)`: resets the smart pointer at
the state's level; the placement destructor of the object living there
(if any) runs.  Reading `currState->m_level` from an unregistered id is
undefined behaviour. -/
def doExit (d : FsmStaticData) (m : Machine) (cur : StateId) :
    Option (Machine × List Action) :=
  match d.findState cur with
  | none => none
  | some info =>
    let tr := match ogetI m.objs info.level with
      | some obj => [Action.exit obj]
      | none => []
    some ({ m with objs := m.objs.set info.level none }, tr)

/-- `FsmBaseMember::doEntry(const StateInfo*, FsmBaseBase*)`: runs the
maker of `newState` on the storage of its level. -/
def doEntry (d : FsmStaticData) (m : Machine) (newId : StateId) :
    Option (Machine × List Action) :=
  match d.findState newId with
  | none => none
  | some info =>
    some ({ m with objs := m.objs.set info.level (some newId) },
          [Action.enter newId])

/-- First loop of `FsmBaseMember::doTransition`: "src level down to
nextInfos level" — exit while `m_currentInfo->m_level > targetLevel`. -/
def exitDownTo : Nat → FsmStaticData → Nat → Machine → Option (Machine × List Action)
  | 0, _, _, _ => none
  | fuel + 1, d, tl, m =>
    match m.currentInfo with
    | none => none
    | some cur =>
      match d.findState cur with
      | none => none
      | some info =>
        if tl < info.level then
          match doExit d m cur with
          | none => none
          | some (m1, tr1) =>
            let m2 := { m1 with currentInfo := some (lgetI m1.stackI (info.level - 1)) }
            match exitDownTo fuel d tl m2 with
            | none => none
            | some (m3, tr2) => some (m3, tr1 ++ tr2)
        else some (m, [])

/-- Second loop of `FsmBaseMember::doTransition`: "nextInfos level down to
src level" — record the target chain while `nextInfo->m_level >
m_currentInfo->m_level` (the current level does not change during this
loop, so it is passed as `curLevel`). -/
def lowerNext : Nat → FsmStaticData → Nat → StateId → Machine → Option (StateId × Machine)
  | 0, _, _, _, _ => none
  | fuel + 1, d, curLevel, next, m =>
    match d.findState next with
    | none => none
    | some info =>
      if curLevel < info.level then
        lowerNext fuel d curLevel info.parentId
          { m with stackI := m.stackI.set info.level next }
      else some (next, m)

/-- Third loop of `FsmBaseMember::doTransition`: "both level down" — exit
and descend while the two chains differ and the level is positive. -/
def descendBoth : Nat → FsmStaticData → Nat → StateId → Machine →
    Option (StateId × Machine × List Action)
  | 0, _, _, _, _ => none
  | fuel + 1, d, level, next, m =>
    match m.currentInfo with
    | none => none
    | some cur =>
      if next ≠ cur ∧ 0 < level then
        match doExit d m cur with
        | none => none
        | some (m1, tr1) =>
          let m2 := { m1 with stackI := m1.stackI.set level next }
          let cur' := lgetI m2.stackI (level - 1)
          let m3 := { m2 with currentInfo := some cur' }
          match d.findState next with
          | none => none
          | some ninfo =>
            match descendBoth fuel d (level - 1) ninfo.parentId m3 with
            | none => none
            | some (nf, m4, tr2) => some (nf, m4, tr1 ++ tr2)
      else some (next, m, [])

/-- Final loop of `FsmBaseMember::doTransition` (also the second half of
`setupTransition`): "start going up again" — enter recorded states while
`m_currentInfo->m_level < targetLevel`. -/
def entryUp : Nat → FsmStaticData → Nat → Machine → Option (Machine × List Action)
  | 0, _, _, _ => none
  | fuel + 1, d, tl, m =>
    match m.currentInfo with
    | none => none
    | some cur =>
      match d.findState cur with
      | none => none
      | some info =>
        if info.level < tl then
          let cur' := lgetI m.stackI (info.level + 1)
          let m1 := { m with currentInfo := some cur' }
          match doEntry d m1 cur' with
          | none => none
          | some (m2, tr1) =>
            match entryUp fuel d tl m2 with
            | none => none
            | some (m3, tr2) => some (m3, tr1 ++ tr2)
        else some (m, [])

/-- `FsmBaseMember::doTransition(const StateInfo* nextInfo, FsmBaseBase*)`
(StateChart.cpp).  `next` is the id behind `nextInfo`.  The structure
mirrors the source: the self-transition special case, the four loops and
the level-0 special case in between. -/
def doTransitionF (fuel : Nat) (d : FsmStaticData) (next : StateId) (m : Machine) :
    Option (Machine × List Action) :=
  match d.findState next with
  | none => none
  | some ninfo =>
    match m.currentInfo with
    | none => none
    | some cur =>
      if cur = next then
        match doExit d m cur with
        | none => none
        | some (m1, tr1) =>
          match doEntry d m1 cur with
          | none => none
          | some (m2, tr2) => some (m2, tr1 ++ tr2)
      else
        match exitDownTo fuel d ninfo.level m with
        | none => none
        | some (m1, tr1) =>
          match m1.currentInfo with
          | none => none
          | some c1 =>
            match d.findState c1 with
            | none => none
            | some c1info =>
              match lowerNext fuel d c1info.level next m1 with
              | none => none
              | some (n2, m2) =>
                match descendBoth fuel d c1info.level n2 m2 with
                | none => none
                | some (n3, m3, tr3) =>
                  match m3.currentInfo with
                  | none => none
                  | some c3 =>
                    match (if n3 ≠ c3 then
                            match doExit d m3 c3 with
                            | none => none
                            | some (m4a, tr4a) =>
                              let m4b := { m4a with
                                stackI := m4a.stackI.set 0 n3,
                                currentInfo := some n3 }
                              match doEntry d m4b n3 with
                              | none => none
                              | some (m4c, tr4b) => some (m4c, tr4a ++ tr4b)
                          else some (m3, ([] : List Action))) with
                    | none => none
                    | some (m4, tr4) =>
                      match entryUp fuel d ninfo.level m4 with
                      | none => none
                      | some (m5, tr5) => some (m5, tr1 ++ tr3 ++ tr4 ++ tr5)

/-- `FsmBaseMember::possiblyDoTransition(FsmBaseBase*)` (the copy embedded
in test.cpp, which matches the current header): the loop clears
`m_nextState` before the registration check, so an unknown id is simply
dropped. -/
def possiblyDoTransitionF : Nat → FsmStaticData → Machine → Option (Machine × List Action)
  | 0, _, _ => none
  | fuel + 1, d, m =>
    if m.nextState ≠ nullStateId then
      let i := d.findState m.nextState
      let m1 := { m with nextState := nullStateId }
      match i with
      | some _ =>
        match doTransitionF fuel d m.nextState m1 with
        | none => none
        | some (m2, tr1) =>
          match possiblyDoTransitionF fuel d m2 with
          | none => none
          | some (m3, tr2) => some (m3, tr1 ++ tr2)
      | none =>
        match possiblyDoTransitionF fuel d m1 with
        | none => none
        | some (m3, tr2) => some (m3, tr2)
    else some (m, [])

/-- `FsmBaseMember::cleanup()` (the copy embedded in test.cpp, which
matches the current header): returns at once when `m_currentInfo` is
null, otherwise exits every level from the leaf to the root. -/
def cleanupF : Nat → FsmStaticData → Machine → Option (Machine × List Action)
  | 0, _, _ => none
  | fuel + 1, d, m =>
    match m.currentInfo with
    | none => some (m, [])
    | some cur =>
      match d.findState cur with
      | none => none
      | some info =>
        if 0 < info.level then
          match doExit d m cur with
          | none => none
          | some (m1, tr1) =>
            let m2 := { m1 with currentInfo := some (lgetI m1.stackI (info.level - 1)) }
            match cleanupF fuel d m2 with
            | none => none
            | some (m3, tr2) => some (m3, tr1 ++ tr2)
        else
          match doExit d m cur with
          | none => none
          | some (m1, tr1) => some ({ m1 with currentInfo := none }, tr1)

/-- `FsmBaseMember::activeStateId()`: translates the `m_currentInfo`
pointer back to an id (`nullStateId` for null). -/
def activeStateId (m : Machine) : StateId :=
  match m.currentInfo with
  | some i => i
  | none => nullStateId

/-- `FsmBase::currentState<State>()` (StateChart.h): null unless the
declared id of `State` equals the active id; otherwise the object at the
current level is returned.  The returned typed pointer is modelled by the
id of the object it designates. -/
def currentState (d : FsmStaticData) (m : Machine) (T : StateId) : Option StateId :=
  if T ≠ activeStateId m then none
  else
    match m.currentInfo with
    | none => none
    | some ci =>
      match d.findState ci with
      | none => none
      | some info => ogetI m.objs info.level

/-- `FsmBaseMember::activeState(int targetId)` together with the
`FsmBase::activeState<State>()` wrapper: null when no state is active,
when the target's level is deeper than the current level, or when the
stack slot at the target's level holds a different state; otherwise the
object at that level. -/
def activeState (d : FsmStaticData) (m : Machine) (T : StateId) : Option StateId :=
  match m.currentInfo with
  | none => none
  | some ci =>
    match d.findState ci with
    | none => none
    | some cinfo =>
      match d.findState T with
      | none => none
      | some tinfo =>
        if cinfo.level < tinfo.level then none
        else if lgetI m.stackI tinfo.level ≠ T then none
        else ogetI m.objs tinfo.level

/-- Behaviour of one user event handler (`bool event(const Event&)` on a
state): whether it returns true, the argument of its last `transition`
call if it makes any, and the events it posts via `postEvent`, in order. -/
structure HandlerResult where
  handled : Bool
  req : Option StateId
  posts : List Event
deriving DecidableEq, Repr

/-- Assignment of handler behaviour to every state id. -/
abbrev Handlers := StateId → Event → HandlerResult

mutual

/-- `FsmBaseEvent::postEvent(const Event&)`: push, and drain the queue
only when it was empty before the push. -/
def postEventF : Nat → Handlers → FsmStaticData → Machine → Event →
    Option (Machine × List Action)
  | 0, _, _, _, _ => none
  | fuel + 1, H, d, m, ev =>
    let wasEmpty := m.queue.empty
    let m1 := { m with queue := m.queue.push ev }
    if wasEmpty then processQueueF fuel H d m1 else some (m1, [])

/-- `FsmBaseEvent::processQueue()`: repeatedly copy the front event,
process it, then pop. -/
def processQueueF : Nat → Handlers → FsmStaticData → Machine →
    Option (Machine × List Action)
  | 0, _, _, _ => none
  | fuel + 1, H, d, m =>
    if m.queue.empty then some (m, [])
    else
      match m.queue.front? with
      | none => none
      | some ev =>
        match processEventF fuel H d m ev with
        | none => none
        | some (m1, tr1) =>
          let m2 := { m1 with queue := m1.queue.pop }
          match processQueueF fuel H d m2 with
          | none => none
          | some (m3, tr2) => some (m3, tr1 ++ tr2)

/-- `FsmBaseEvent::processEvent(const Event&)`: return at once when no
state is active; otherwise bubble the event from the innermost level
upward and afterwards apply any pending transition. -/
def processEventF : Nat → Handlers → FsmStaticData → Machine → Event →
    Option (Machine × List Action)
  | 0, _, _, _, _ => none
  | fuel + 1, H, d, m, ev =>
    match m.currentInfo with
    | none => some (m, [])
    | some ci =>
      match d.findState ci with
      | none => none
      | some info =>
        match bubbleF fuel H d m ev info.level with
        | none => none
        | some (m1, tr1) =>
          match possiblyDoTransitionF fuel d m1 with
          | none => none
          | some (m2, tr2) => some (m2, Action.dispatch ev :: (tr1 ++ tr2))

/-- The bubble loop inside `processEvent`: call the handler of the object
at each level from `level` down to 0, stopping at the first level whose
handler returns true.  Handler side effects (transition request
overwrite, reentrant posts) are applied as they occur. -/
def bubbleF : Nat → Handlers → FsmStaticData → Machine → Event → Nat →
    Option (Machine × List Action)
  | 0, _, _, _, _, _ => none
  | fuel + 1, H, d, m, ev, level =>
    match ogetI m.objs level with
    | none => none
    | some obj =>
      let r := H obj ev
      let m1 := match r.req with
        | some t => { m with nextState := t }
        | none => m
      match postListF fuel H d m1 r.posts with
      | none => none
      | some (m2, tr1) =>
        if r.handled then some (m2, tr1)
        else if level = 0 then some (m2, tr1)
        else
          match bubbleF fuel H d m2 ev (level - 1) with
          | none => none
          | some (m3, tr2) => some (m3, tr1 ++ tr2)

/-- Sequence of `postEvent` calls a handler performs, applied in order. -/
def postListF : Nat → Handlers → FsmStaticData → Machine → List Event →
    Option (Machine × List Action)
  | 0, _, _, _, _ => none
  | _ + 1, _, _, m, [] => some (m, [])
  | fuel + 1, H, d, m, e :: es =>
    match postEventF fuel H d m e with
    | none => none
    | some (m1, tr1) =>
      match postListF fuel H d m1 es with
      | none => none
      | some (m2, tr2) => some (m2, tr1 ++ tr2)

end

/-! ### The active chain, common-prefix length and well-formed machines -/

/-- A parent-linked chain of registered states, index `i` = level `i`;
the root's parent is itself (states registered with
`addState<State>()` have `parentId == stateId`). -/
def IsChain (d : FsmStaticData) (c : List StateId) : Prop :=
  c ≠ [] ∧ ∀ i, i < c.length →
    d.findState (lgetI c i) = some ⟨lgetI c (i - 1), i⟩

/-- Length of the longest common prefix of two chains; this is the value
`FsmBaseSupport::findFirstThatDiffer` computes, and `k = lcpLen - 1` is
the divergence point of the specification. -/
def lcpLen : List StateId → List StateId → Nat
  | a :: as, b :: bs => if a = b then lcpLen as bs + 1 else 0
  | _, _ => 0

/-- Well-formed running machine with active chain `c`: `m_currentInfo`
points at the leaf, the stack's info pointers agree with `c`, exactly the
chain's levels hold live objects, and the frame vector is large enough. -/
def MWF (d : FsmStaticData) (c : List StateId) (m : Machine) : Prop :=
  IsChain d c ∧
  m.currentInfo = some (lgetI c (c.length - 1)) ∧
  (∀ i, i < c.length → lgetI m.stackI i = lgetI c i) ∧
  (∀ i, i < c.length → ogetI m.objs i = some (lgetI c i)) ∧
  (∀ i, i < m.objs.length → c.length ≤ i → ogetI m.objs i = none) ∧
  c.length ≤ m.objs.length


/-! ### VecQueue: invariant and refinement to a plain FIFO list -/

namespace VecQueue

/-- The unpopped elements, earliest first. -/
def abs (q : VecQueue α) : List α := q.store.drop q.headPos

/-- Queue invariant maintained by `push`/`pop` (the comment block in
VecQueue.h): the head index stays strictly inside the store unless the
store is empty, in which case the head index is 0. -/
def QInv (q : VecQueue α) : Prop :=
  q.headPos < q.store.length ∨ (q.headPos = 0 ∧ q.store = [])

end VecQueue

/-- One client operation on a `VecQueue`. -/
inductive QOp where
  | enq (e : Event)
  | deq
deriving DecidableEq, Repr

/-- Run a sequence of operations on the concrete queue. -/
def runOps : List QOp → VecQueue Event → VecQueue Event
  | [], q => q
  | QOp.enq e :: r, q => runOps r (q.push e)
  | QOp.deq :: r, q => runOps r q.pop

/-- A sequence is valid when `pop` is only ever applied to a non-empty
queue (the documented precondition of `VecQueue::pop`). -/
def validOps : List QOp → VecQueue Event → Bool
  | [], _ => true
  | QOp.enq e :: r, q => validOps r (q.push e)
  | QOp.deq :: r, q => !q.empty && validOps r q.pop

/-- The same operations on a plain list: the FIFO specification. -/
def specOps : List QOp → List Event → List Event
  | [], l => l
  | QOp.enq e :: r, l => specOps r (l ++ [e])
  | QOp.deq :: r, l => specOps r l.tail

/-- Concrete operation sequence exercising `VecQueue`, long enough to
cross the `normLimit = 15` renormalization threshold. -/
def opsEx : List QOp :=
  (List.range 16).map (fun i => QOp.enq (Int.ofNat i + 1)) ++
    List.replicate 9 QOp.deq ++ [QOp.enq 17]

/-- Concrete state table mirroring the shape of the unit-test fixture
(fsm2_test): id 0 = root (level 0), ids 1 and 4 children of 0 (level 1),
ids 2 and 3 children of 1 (level 2). -/
def dEx : FsmStaticData :=
  ⟨[some ⟨0, 0⟩, some ⟨0, 1⟩, some ⟨1, 2⟩, some ⟨1, 2⟩, some ⟨0, 1⟩], [8, 8, 8]⟩

/-- The same five states registered in a table built for six
(`FsmStaticData(6)` pre-sizes `m_states` with default-constructed
entries whose maker is null): slot 5 is in range but was never
registered, so `findState(5)` reads it and returns null - defined
behaviour in the source, unlike an out-of-range index. -/
def dEx7 : FsmStaticData :=
  ⟨[some ⟨0, 0⟩, some ⟨0, 1⟩, some ⟨1, 2⟩, some ⟨1, 2⟩, some ⟨0, 1⟩, none], [8, 8, 8]⟩

/-- Concrete active chain 0 → 1 → 2. -/
def cEx : List StateId := [0, 1, 2]

/-- Concrete running machine with active chain `cEx`. -/
def mEx : Machine :=
  ⟨[0, 1, 2], [some 0, some 1, some 2], some 2, nullStateId, ⟨[], 0⟩⟩

/-- Concrete machine on which `setStartState` was never called. -/
def mU : Machine := ⟨[], [], none, nullStateId, ⟨[], 0⟩⟩

/-- Concrete handler behaviour: on event 7 the leaf (id 2) requests a
transition to 3 without handling, its parent (id 1) then requests a
transition to 4 without handling, and the root handles; on event 8 the
leaf posts event 9 and handles; on event 9 the leaf requests a transition
to 3 and handles. -/
def HEx : Handlers := fun s ev =>
  if ev = 7 then
    if s = 2 then ⟨false, some 3, []⟩
    else if s = 1 then ⟨false, some 4, []⟩
    else ⟨true, none, []⟩
  else if ev = 8 then
    if s = 2 then ⟨true, none, [9]⟩ else ⟨true, none, []⟩
  else if ev = 9 then
    if s = 2 then ⟨true, some 3, []⟩ else ⟨true, none, []⟩
  else ⟨false, none, []⟩

instance decIsChain (d : FsmStaticData) (c : List StateId) : Decidable (IsChain d c) := by
  unfold IsChain
  infer_instance

instance decMWF (d : FsmStaticData) (c : List StateId) (m : Machine) :
    Decidable (MWF d c m) := by
  unfold MWF
  infer_instance

/-! ### Specification-side description of the bubble walk (used by the
run-to-completion and FIFO claims) -/

/-- Push a list of events in order. -/
def VecQueue.pushAll (q : VecQueue Event) : List Event → VecQueue Event
  | [] => q
  | e :: es => VecQueue.pushAll (q.push e) es

/-- Specification of the pending transition target after the bubble
walk: the handlers of `walk` (innermost state first) run in order until
one returns true; each `transition` call overwrites the pending id. -/
def walkReq (H : Handlers) (ev : Event) : List StateId → StateId → StateId
  | [], pending => pending
  | s :: rest, pending =>
    let r := H s ev
    let pending1 := match r.req with
      | some tgt => tgt
      | none => pending
    if r.handled then pending1 else walkReq H ev rest pending1

/-- Specification of the events posted during the bubble walk, in
posting order. -/
def walkPosts (H : Handlers) (ev : Event) : List StateId → List Event
  | [] => []
  | s :: rest =>
    let r := H s ev
    if r.handled then r.posts else r.posts ++ walkPosts H ev rest

/-- Running machine like `mEx` whose queue holds event 7: the situation
inside `processQueue` while event 7 is being delivered. -/
def mEx7 : Machine :=
  ⟨[0, 1, 2], [some 0, some 1, some 2], some 2, nullStateId, ⟨[7], 0⟩⟩

/-- Running machine like `mEx` whose queue holds event 8: the situation
inside `processQueue` while event 8 is being delivered. -/
def mEx8 : Machine :=
  ⟨[0, 1, 2], [some 0, some 1, some 2], some 2, nullStateId, ⟨[8], 0⟩⟩

/-! ### End of definitions -/

/-! ### Theorems -/

/-! ### Basic facts about the indexed reads and list updates -/

theorem dget_set_self {α : Type} (dflt : α) :
    ∀ (l : List α) (i : Nat) (v : α), i < l.length → dget dflt (l.set i v) i = v
  | [], i, _, h => absurd h (by simp)
  | _ :: _, 0, _, _ => rfl
  | _ :: as, i + 1, v, h => dget_set_self dflt as i v (by simpa using h)

theorem dget_set_ne {α : Type} (dflt : α) :
    ∀ (l : List α) (i j : Nat) (v : α), i ≠ j → dget dflt (l.set i v) j = dget dflt l j
  | [], _, _, _, _ => rfl
  | _ :: _, 0, 0, _, h => absurd rfl h
  | _ :: _, 0, _ + 1, _, _ => rfl
  | _ :: _, _ + 1, 0, _, _ => rfl
  | _ :: as, i + 1, j + 1, v, h =>
    dget_set_ne dflt as i j v (fun e => h (by rw [e]))

theorem lgetI_set_self (l : List StateId) (i : Nat) (v : StateId)
    (h : i < l.length) : lgetI (l.set i v) i = v := dget_set_self nullStateId l i v h

theorem lgetI_set_ne (l : List StateId) (i j : Nat) (v : StateId)
    (h : i ≠ j) : lgetI (l.set i v) j = lgetI l j := dget_set_ne nullStateId l i j v h

theorem ogetI_set_self (l : List (Option StateId)) (i : Nat) (v : Option StateId)
    (h : i < l.length) : ogetI (l.set i v) i = v := dget_set_self none l i v h

theorem ogetI_set_ne (l : List (Option StateId)) (i j : Nat) (v : Option StateId)
    (h : i ≠ j) : ogetI (l.set i v) j = ogetI l j := dget_set_ne none l i j v h

theorem take_succ_dget {α : Type} (dflt : α) :
    ∀ (l : List α) (i : Nat), i < l.length →
      l.take (i + 1) = l.take i ++ [dget dflt l i]
  | [], i, h => absurd h (by simp)
  | a :: as, 0, _ => by simp [dget]
  | a :: as, i + 1, h => by
    have := take_succ_dget dflt as i (by simpa using h)
    simp [List.take_succ_cons, this, dget]

theorem drop_eq_cons_dget {α : Type} (dflt : α) :
    ∀ (l : List α) (i : Nat), i < l.length →
      l.drop i = dget dflt l i :: l.drop (i + 1)
  | [], i, h => absurd h (by simp)
  | a :: as, 0, _ => by simp [dget]
  | a :: as, i + 1, h => by
    have := drop_eq_cons_dget dflt as i (by simpa using h)
    simpa [dget] using this

theorem dget_append_left {α : Type} (dflt : α) :
    ∀ (l₁ l₂ : List α) (i : Nat), i < l₁.length →
      dget dflt (l₁ ++ l₂) i = dget dflt l₁ i
  | [], _, i, h => absurd h (by simp)
  | _ :: _, _, 0, _ => rfl
  | _ :: as, l₂, i + 1, h => dget_append_left dflt as l₂ i (by simpa using h)

theorem dget_of_take {α : Type} (dflt : α) (l : List α) (i n : Nat)
    (hi : i < n) (hn : n ≤ l.length) : dget dflt (l.take n) i = dget dflt l i := by
  induction l generalizing i n with
  | nil => simp at hn; omega
  | cons a as ih =>
    cases n with
    | zero => omega
    | succ n =>
      cases i with
      | zero => rfl
      | succ i =>
        simpa [dget] using ih i n (by omega) (by simpa using hn)

theorem lcpLen_le_left : ∀ (c t : List StateId), lcpLen c t ≤ c.length
  | [], _ => by simp [lcpLen]
  | _ :: _, [] => by simp [lcpLen]
  | a :: as, b :: bs => by
    by_cases h : a = b
    · simpa [lcpLen, h] using lcpLen_le_left as bs
    · simp [lcpLen, h]

theorem lcpLen_le_right : ∀ (c t : List StateId), lcpLen c t ≤ t.length
  | [], _ => by simp [lcpLen]
  | _ :: _, [] => by simp [lcpLen]
  | a :: as, b :: bs => by
    by_cases h : a = b
    · simpa [lcpLen, h] using lcpLen_le_right as bs
    · simp [lcpLen, h]

theorem lcpLen_agree : ∀ (c t : List StateId) (i : Nat), i < lcpLen c t →
    lgetI c i = lgetI t i
  | [], _, _, h => by simp [lcpLen] at h
  | _ :: _, [], _, h => by simp [lcpLen] at h
  | a :: as, b :: bs, i, h => by
    by_cases hab : a = b
    · cases i with
      | zero => simpa [dget] using hab
      | succ i =>
        simp only [lcpLen, hab, if_true] at h
        simpa [dget] using lcpLen_agree as bs i (by omega)
    · simp [lcpLen, hab] at h

theorem lcpLen_ne : ∀ (c t : List StateId), lcpLen c t < c.length →
    lcpLen c t < t.length → lgetI c (lcpLen c t) ≠ lgetI t (lcpLen c t)
  | [], _, h, _ => by simp [lcpLen] at h
  | _ :: _, [], _, h => by simp [lcpLen] at h
  | a :: as, b :: bs, h₁, h₂ => by
    by_cases hab : a = b
    · simp only [lcpLen, hab, if_true] at h₁ h₂ ⊢
      simpa [dget] using lcpLen_ne as bs (by simpa using h₁) (by simpa using h₂)
    · simp [lcpLen, hab, dget]

/-- Two chains over the same table that agree at a level agree at the
level below: parents are read off the same `StateInfo`. -/
theorem chain_agree_pred (d : FsmStaticData) (c t : List StateId)
    (hc : IsChain d c) (ht : IsChain d t) (i : Nat)
    (hic : i < c.length) (hit : i < t.length)
    (h : lgetI c i = lgetI t i) : lgetI c (i - 1) = lgetI t (i - 1) := by
  have e₁ := hc.2 i hic
  have e₂ := ht.2 i hit
  rw [h, e₂] at e₁
  have := Option.some.inj e₁
  exact (congrArg StateInfo.parentId this).symm

/-- Above the common prefix the chains differ at every level (otherwise
agreement would propagate down to the first difference). -/
theorem chain_ne_of_lcp_le (d : FsmStaticData) (c t : List StateId)
    (hc : IsChain d c) (ht : IsChain d t)
    (hKc : lcpLen c t < c.length) (hKt : lcpLen c t < t.length) :
    ∀ i, lcpLen c t ≤ i → i < c.length → i < t.length →
      lgetI c i ≠ lgetI t i := by
  intro i hKi
  induction i with
  | zero =>
    intro h₁ h₂
    have hK0 : lcpLen c t = 0 := Nat.le_zero.mp hKi
    simpa [hK0] using lcpLen_ne c t hKc hKt
  | succ i ih =>
    intro h₁ h₂ heq
    rcases Nat.lt_or_ge (lcpLen c t) (i + 1) with hlt | hge
    · have := chain_agree_pred d c t hc ht (i + 1) h₁ h₂ heq
      simp only [Nat.add_sub_cancel] at this
      exact ih (by omega) (by omega) (by omega) this
    · have hK : lcpLen c t = i + 1 := by omega
      exact (hK ▸ lcpLen_ne c t hKc hKt) heq

namespace VecQueue

theorem drop_append_le {α : Type} :
    ∀ (l₁ l₂ : List α) (n : Nat), n ≤ l₁.length →
      (l₁ ++ l₂).drop n = l₁.drop n ++ l₂
  | _, _, 0, _ => rfl
  | [], _, _ + 1, h => absurd h (by simp)
  | _ :: as, l₂, n + 1, h => drop_append_le as l₂ n (by simpa using h)

theorem qinv_le {α : Type} {q : VecQueue α} (h : QInv q) :
    q.headPos ≤ q.store.length := by
  rcases h with h | ⟨h, _⟩
  · omega
  · omega

theorem abs_checkRenormalization {α : Type} (q : VecQueue α) :
    q.checkRenormalization.abs = q.abs := by
  unfold checkRenormalization abs
  split <;> simp

theorem qinv_checkRenormalization {α : Type} (q : VecQueue α) :
    QInv q.checkRenormalization ∨ q.checkRenormalization = q := by
  unfold checkRenormalization
  split
  · left
    unfold QInv
    rcases h : q.store.drop q.headPos with _ | ⟨a, l⟩
    · right; simp [h]
    · left; simp [h]
  · right; rfl

theorem abs_push {α : Type} (q : VecQueue α) (el : α) (h : QInv q) :
    (q.push el).abs = q.abs ++ [el] := by
  unfold push pushN
  split
  · have h₂ : q.checkRenormalization.headPos ≤ q.checkRenormalization.store.length := by
      unfold checkRenormalization
      split
      · simp
      · exact qinv_le h
    simp only [abs, drop_append_le _ _ _ h₂]
    rw [show q.checkRenormalization.store.drop q.checkRenormalization.headPos
          = q.checkRenormalization.abs from rfl, abs_checkRenormalization]
    rfl
  · simp only [abs, drop_append_le _ _ _ (qinv_le h)]

theorem qinv_push {α : Type} (q : VecQueue α) (el : α) (h : QInv q) :
    QInv (q.push el) := by
  unfold push pushN
  have hle : ∀ q' : VecQueue α, q'.headPos ≤ q'.store.length →
      QInv { q' with store := q'.store ++ [el] } := by
    intro q' h'
    left
    simp only [List.length_append, List.length_cons, List.length_nil]
    omega
  split
  · apply hle
    unfold checkRenormalization
    split
    · simp
    · exact qinv_le h
  · exact hle q (qinv_le h)

theorem abs_ne_nil_of_not_empty {α : Type} {q : VecQueue α} (hI : QInv q)
    (h : q.empty = false) : q.abs ≠ [] := by
  unfold empty at h
  rcases hI with hI | ⟨_, hs⟩
  · unfold abs
    intro hcon
    have := congrArg List.length hcon
    simp at this
    omega
  · rw [hs] at h
    simp at h

theorem drop_succ_tail {α : Type} :
    ∀ (l : List α) (n : Nat), l.drop (n + 1) = (l.drop n).tail
  | [], _ => by simp
  | _ :: _, 0 => by simp
  | _ :: as, n + 1 => drop_succ_tail as n

theorem get?_eq_head?_drop {α : Type} :
    ∀ (l : List α) (n : Nat), l.get? n = (l.drop n).head?
  | [], n => by simp
  | _ :: _, 0 => rfl
  | _ :: as, n + 1 => get?_eq_head?_drop as n

theorem headPos_lt_of_not_empty {α : Type} {q : VecQueue α} (hI : QInv q)
    (hne : q.empty = false) : q.headPos < q.store.length := by
  rcases hI with h | ⟨_, hs⟩
  · exact h
  · unfold empty at hne; rw [hs] at hne; simp at hne

theorem abs_pop {α : Type} (q : VecQueue α) (hI : QInv q) (hne : q.empty = false) :
    (q.pop).abs = q.abs.tail := by
  have hlt := headPos_lt_of_not_empty hI hne
  unfold pop check_empty abs
  split
  · next h =>
    simp only at h ⊢
    rw [← drop_succ_tail, h, List.drop_length]
    rfl
  · next h =>
    simp only at h ⊢
    exact drop_succ_tail _ _

theorem qinv_pop {α : Type} (q : VecQueue α) (hI : QInv q) (hne : q.empty = false) :
    QInv q.pop := by
  have hlt := headPos_lt_of_not_empty hI hne
  unfold pop check_empty
  split
  · next h => right; constructor <;> rfl
  · next h =>
    left
    simp only at h ⊢
    omega

theorem front?_eq_head?_abs {α : Type} (q : VecQueue α) :
    q.front? = q.abs.head? := get?_eq_head?_drop _ _

theorem size_eq_length_abs {α : Type} (q : VecQueue α) :
    q.size = q.abs.length := by
  unfold size abs
  simp

theorem empty_iff_size_zero {α : Type} (q : VecQueue α) (hI : QInv q) :
    q.empty = true ↔ q.size = 0 := by
  unfold empty size
  rcases hI with h | ⟨h0, hs⟩
  · constructor
    · intro he
      have : q.store = [] := by simpa using he
      simp [this] at h
    · intro hsz; omega
  · simp [hs, h0]

end VecQueue

/-- Any valid run preserves the queue invariant and refines the plain
FIFO list semantics. -/
theorem runOps_refines : ∀ (ops : List QOp) (q : VecQueue Event),
    VecQueue.QInv q → validOps ops q = true →
    VecQueue.QInv (runOps ops q) ∧ (runOps ops q).abs = specOps ops q.abs
  | [], _, hI, _ => ⟨hI, rfl⟩
  | QOp.enq e :: r, q, hI, hv => by
    have hI' := VecQueue.qinv_push q e hI
    have hv' : validOps r (q.push e) = true := by simpa [validOps] using hv
    have ih := runOps_refines r (q.push e) hI' hv'
    refine ⟨ih.1, ?_⟩
    rw [show runOps (QOp.enq e :: r) q = runOps r (q.push e) from rfl, ih.2,
        VecQueue.abs_push q e hI]
    rfl
  | QOp.deq :: r, q, hI, hv => by
    simp only [validOps, Bool.and_eq_true, Bool.not_eq_true'] at hv
    obtain ⟨hne, hvr⟩ := hv
    have hI' := VecQueue.qinv_pop q hI hne
    have ih := runOps_refines r q.pop hI' hvr
    refine ⟨ih.1, ?_⟩
    rw [show runOps (QOp.deq :: r) q = runOps r q.pop from rfl, ih.2,
        VecQueue.abs_pop q hI hne]
    rfl


/-- C9: starting from an empty queue, for every sequence of push/pop
operations in which pop is only applied to a non-empty queue, the
invariant `m_headPos <= m_store.size()` holds, the store is empty exactly
when no unpopped elements remain, `empty()` is true iff `size() == 0`,
the unpopped elements are exactly the FIFO list of the specification, and
`front()` is the earliest-pushed element not yet popped — including
across renormalization. -/
theorem c9_vecqueue_fifo (ops : List QOp)
    (hv : validOps ops ⟨[], 0⟩ = true) :
    (runOps ops ⟨[], 0⟩).headPos ≤ (runOps ops ⟨[], 0⟩).store.length ∧
    ((runOps ops ⟨[], 0⟩).store = [] ↔ (runOps ops ⟨[], 0⟩).size = 0) ∧
    ((runOps ops ⟨[], 0⟩).empty = true ↔ (runOps ops ⟨[], 0⟩).size = 0) ∧
    (runOps ops ⟨[], 0⟩).abs = specOps ops [] ∧
    (runOps ops ⟨[], 0⟩).front? = (specOps ops []).head? := by
  have h0 : VecQueue.QInv (⟨[], 0⟩ : VecQueue Event) := Or.inr ⟨rfl, rfl⟩
  obtain ⟨hI, habs⟩ := runOps_refines ops ⟨[], 0⟩ h0 hv
  refine ⟨VecQueue.qinv_le hI, ?_, VecQueue.empty_iff_size_zero _ hI, ?_, ?_⟩
  · constructor
    · intro h
      simp [VecQueue.size, h]
    · intro h
      rcases hI with hlt | ⟨_, hs⟩
      · simp [VecQueue.size] at h
        omega
      · exact hs
  · exact habs
  · rw [VecQueue.front?_eq_head?_abs, habs]
    rfl

/-- Witness for C9 at a concrete operation sequence crossing the
renormalization threshold. -/
theorem c9_witness :
    validOps opsEx ⟨[], 0⟩ = true ∧
    ((runOps opsEx ⟨[], 0⟩).headPos ≤ (runOps opsEx ⟨[], 0⟩).store.length ∧
    ((runOps opsEx ⟨[], 0⟩).store = [] ↔ (runOps opsEx ⟨[], 0⟩).size = 0) ∧
    ((runOps opsEx ⟨[], 0⟩).empty = true ↔ (runOps opsEx ⟨[], 0⟩).size = 0) ∧
    (runOps opsEx ⟨[], 0⟩).abs = specOps opsEx [] ∧
    (runOps opsEx ⟨[], 0⟩).front? = (specOps opsEx []).head?) :=
  ⟨by decide, c9_vecqueue_fifo opsEx (by decide)⟩


/-- Bridge from `List.getD` (used in `findState`) to `dget`. -/
theorem getD_eq_dget {α : Type} :
    ∀ (l : List α) (i : Nat) (dflt : α), l.getD i dflt = dget dflt l i
  | [], _, _ => rfl
  | _ :: _, 0, _ => rfl
  | _ :: as, i + 1, dflt => getD_eq_dget as i dflt

/-- C10: destroying a machine on which `setStartState` was never called
runs no exit action and touches no current state: `cleanup` returns
immediately, leaving the machine unchanged, as soon as it sees that
`m_currentInfo` is null. -/
theorem c10_cleanup_unstarted_noop (d : FsmStaticData) (m : Machine) (n : Nat)
    (h : m.currentInfo = none) :
    cleanupF (n + 1) d m = some (m, []) := by
  simp [cleanupF, h]

/-- Witness for C10 on a concrete unstarted machine. -/
theorem c10_witness : mU.currentInfo = none ∧ cleanupF 5 dEx mU = some (mU, []) :=
  ⟨rfl, c10_cleanup_unstarted_noop dEx mU 4 rfl⟩

/-- C7 (amended): a transition request naming an unregistered id is not
surfaced as a failure: `possiblyDoTransition` clears the pending id,
performs no exit or entry, reports nothing, and terminates. -/
theorem c7_unknown_transition_silently_dropped (d : FsmStaticData) (m : Machine)
    (n : Nat) (h1 : m.nextState ≠ nullStateId)
    (h2 : d.findState m.nextState = none) :
    possiblyDoTransitionF (n + 2) d m =
      some ({ m with nextState := nullStateId }, []) := by
  rw [show n + 2 = (n + 1) + 1 from rfl]
  simp [possiblyDoTransitionF, h1, h2]

/-- C7 counterexample: on the concrete running machine over the six-slot
table `dEx7`, requesting a transition to id 5 - in range, but never
registered, so `m_states[5].m_maker` is null and `findState` returns
null with defined behaviour - returns normally with the pending id
cleared, an empty action trace and no error of any kind — the request is
silently ignored, not surfaced as an "UnknownState" failure at the call
site. -/
theorem c7_counterexample :
    possiblyDoTransitionF 5 dEx7 { mEx with nextState := 5 } = some (mEx, []) := by
  decide

/-- Witness for C7's amended statement at a concrete machine: the
pending id 5 falls inside the six-slot `m_states` of `dEx7`, so the
lookup traces the source's defined null-maker path. -/
theorem c7_witness :
    ({ mEx with nextState := 5 } : Machine).nextState ≠ nullStateId ∧
    dEx7.findState 5 = none ∧
    possiblyDoTransitionF 5 dEx7 { mEx with nextState := 5 } =
      some (mEx, []) :=
  ⟨by decide, by decide,
    c7_unknown_transition_silently_dropped dEx7 { mEx with nextState := 5 } 3
      (by decide) (by decide)⟩

/-- C4: a transition whose target equals the current leaf id performs
exactly one exit of the leaf followed by one fresh entry of the same
state, touches no other level, and is never a no-op; the machine stays
well-formed on the same chain. -/
theorem c4_self_transition_exit_then_entry (d : FsmStaticData) (c : List StateId)
    (m : Machine) (fuel : Nat) (hM : MWF d c m) :
    ∃ m', doTransitionF fuel d (lgetI c (c.length - 1)) m =
        some (m', [Action.exit (lgetI c (c.length - 1)),
                   Action.enter (lgetI c (c.length - 1))]) ∧
      MWF d c m' := by
  obtain ⟨hchain, hcur, hstack, hobjs, hnone, hlen⟩ := hM
  have hne := hchain.1
  have hlt : c.length - 1 < c.length := by
    cases c with
    | nil => exact absurd rfl hne
    | cons a as => simp
  have hfind := hchain.2 (c.length - 1) hlt
  have hlobj : ogetI m.objs (c.length - 1) = some (lgetI c (c.length - 1)) :=
    hobjs (c.length - 1) hlt
  have hltobj : c.length - 1 < m.objs.length := by omega
  set newObjs := m.objs.set (c.length - 1) (some (lgetI c (c.length - 1))) with hno
  refine ⟨{ m with objs := newObjs }, ?_, ?_⟩
  · simp [doTransitionF, doExit, doEntry, hfind, hcur, hlobj, hno]
  · refine ⟨hchain, hcur, hstack, ?_, ?_, ?_⟩
    · intro i hi
      rcases eq_or_ne (c.length - 1) i with hieq | hieq
      · subst hieq
        rw [hno]
        exact dget_set_self none _ _ _ hltobj
      · rw [hno]
        rw [show ogetI (m.objs.set (c.length - 1) (some (lgetI c (c.length - 1)))) i
              = ogetI m.objs i from dget_set_ne none _ _ _ _ hieq]
        exact hobjs i hi
    · intro i hilen hge
      have hieq : c.length - 1 ≠ i := by omega
      rw [hno]
      rw [show ogetI (m.objs.set (c.length - 1) (some (lgetI c (c.length - 1)))) i
            = ogetI m.objs i from dget_set_ne none _ _ _ _ hieq]
      refine hnone i ?_ hge
      have : newObjs.length = m.objs.length := by simp [hno]
      simp only [hno] at hilen
      simpa using hilen
    · simpa [hno] using hlen

/-- Witness for C4 on the concrete three-level machine. -/
theorem c4_witness :
    MWF dEx cEx mEx ∧
    (∃ m', doTransitionF 10 dEx (lgetI cEx (cEx.length - 1)) mEx =
        some (m', [Action.exit (lgetI cEx (cEx.length - 1)),
                   Action.enter (lgetI cEx (cEx.length - 1))]) ∧
      MWF dEx cEx m') :=
  ⟨by decide, c4_self_transition_exit_then_entry dEx cEx mEx 10 (by decide)⟩


/-- C5 (amended): posting an event on a machine on which `setStartState`
was never called is silently coerced into a no-op: the event is enqueued,
`processEvent` returns without delivering it to any handler (no dispatch,
no exit, no entry), the event is popped again, and no failure of any kind
is surfaced — `postEvent` returns with the machine unchanged. -/
theorem c5_post_event_unstarted_silently_dropped (H : Handlers) (d : FsmStaticData)
    (m : Machine) (ev : Event) (n : Nat)
    (h1 : m.currentInfo = none) (h2 : m.queue = ⟨[], 0⟩) :
    postEventF (n + 3) H d m ev = some (m, []) := by
  obtain ⟨ms, mo, mc, mn, mq⟩ := m
  dsimp only at h1 h2
  subst h1
  subst h2
  simp [postEventF, processQueueF, processEventF, VecQueue.empty, VecQueue.push,
        VecQueue.pushN, VecQueue.checkRenormalization, VecQueue.front?,
        VecQueue.pop, VecQueue.check_empty]

/-- C5 counterexample: posting event 5 on the concrete unstarted machine
returns normally with an empty trace (no dispatch to any handler, no
usage error of any kind is surfaced) and the machine — including the
queue — unchanged: the event has been silently queued, dropped and
popped, contradicting the claim that the call fails with a usage error
and is not silently dropped. -/
theorem c5_counterexample : postEventF 9 HEx dEx mU 5 = some (mU, []) := by
  decide

/-- Witness for C5's amended statement at a concrete machine. -/
theorem c5_witness :
    mU.currentInfo = none ∧ mU.queue = ⟨[], 0⟩ ∧
    postEventF 9 HEx dEx mU 5 = some (mU, []) :=
  ⟨rfl, rfl, c5_post_event_unstarted_silently_dropped HEx dEx mU 5 6 rfl rfl⟩

/-- C6 (amended): registering a state whose id equals the reserved null
id is rejected ("ReservedId", the `static_assert` in `addState`); but a
duplicate id is not detected: `addStateBase` silently replaces the
descriptor already stored for that id with the newly computed one and
reports no error. -/
theorem c6_registration_reserved_and_overwrite (d : FsmStaticData)
    (stateId parentId : StateId) (size : Nat) (pinfo oldInfo : StateInfo)
    (hp : d.findState parentId = some pinfo)
    (_hdup : d.findState stateId = some oldInfo)
    (hne : stateId ≠ parentId)
    (hrange : 0 ≤ stateId ∧ stateId.toNat < d.states.length) :
    (∀ pid : StateId, ∀ sz : Nat, d.addState nullStateId pid sz = .error .ReservedId) ∧
    ∃ d', d.addStateBase stateId parentId size = some d' ∧
      d'.findState stateId = some ⟨parentId, pinfo.level + 1⟩ := by
  constructor
  · intro pid sz
    simp [FsmStaticData.addState]
  · have hge : ¬ stateId < 0 := not_lt.mpr hrange.1
    set sizes0 := d.objectSizes ++ List.replicate (pinfo.level + 1 + 1 - d.objectSizes.length) 0 with hs0
    set sizes1 := if sizes0.getD (pinfo.level + 1) 0 < size then sizes0.set (pinfo.level + 1) size else sizes0 with hs1
    refine ⟨⟨d.states.set stateId.toNat (some ⟨parentId, pinfo.level + 1⟩), sizes1⟩, ?_, ?_⟩
    · simp only [FsmStaticData.addStateBase, hne, ne_eq, not_false_iff, ite_true,
        hp, Option.map_some']
      rw [if_pos hrange]
    · show FsmStaticData.findState _ stateId = _
      simp only [FsmStaticData.findState, hge, if_false]
      rw [getD_eq_dget]
      exact dget_set_self none _ _ _ (by simpa using hrange.2)

/-- C6 counterexample: id 1 is registered in the concrete table with
descriptor (parent 0, level 1); re-registering id 1 with parent 2
succeeds with no error and the stored descriptor afterwards is
(parent 2, level 3) — the duplicate registration silently overwrote the
existing descriptor instead of failing with "DuplicateState". -/
theorem c6_counterexample :
    dEx.findState 1 = some ⟨0, 1⟩ ∧
    (dEx.addStateBase 1 2 4).map (fun d' => d'.findState 1) = some (some ⟨2, 3⟩) := by
  decide

/-- Witness for C6's amended statement at the concrete table. -/
theorem c6_witness :
    dEx.findState 0 = some ⟨0, 0⟩ ∧ dEx.findState 1 = some ⟨0, 1⟩ ∧
    ((1 : StateId) ≠ 0) ∧ (0 ≤ (1 : StateId) ∧ (1 : StateId).toNat < dEx.states.length) ∧
    ((∀ pid : StateId, ∀ sz : Nat, dEx.addState nullStateId pid sz = .error .ReservedId) ∧
     ∃ d', dEx.addStateBase 1 0 4 = some d' ∧
       d'.findState 1 = some ⟨0, 1⟩) :=
  ⟨by decide, by decide, by decide, ⟨by decide, by decide⟩,
    c6_registration_reserved_and_overwrite dEx 1 0 4 ⟨0, 0⟩ ⟨0, 1⟩
      (by decide) (by decide) (by decide) ⟨by decide, by decide⟩⟩


/-- Rebuilding a machine from its own fields is the identity. -/
theorem machine_eq_update (m : Machine) (ci : Option StateId) (st : List StateId)
    (ob : List (Option StateId))
    (h1 : m.currentInfo = ci) (h2 : m.stackI = st) (h3 : m.objs = ob) :
    ({ m with currentInfo := ci, stackI := st, objs := ob } : Machine) = m := by
  cases m
  dsimp only at h1 h2 h3
  subst h1
  subst h2
  subst h3
  rfl

/-- The first loop of `doTransition` does nothing when the current level
is already at or below the target level. -/
theorem exitDownTo_noop (d : FsmStaticData) (fuel : Nat) (m : Machine)
    (cur : StateId) (info : StateInfo) (tl : Nat)
    (hcur : m.currentInfo = some cur) (hfind : d.findState cur = some info)
    (h : info.level ≤ tl) :
    exitDownTo (fuel + 1) d tl m = some (m, []) := by
  simp [exitDownTo, hcur, hfind, Nat.not_lt.mpr h]

/-- Specification of the first loop of `doTransition`: starting at level
`tl + k` on chain `c`, it exits levels `tl + k` down to `tl + 1`
(leaf-to-root), leaves the stack untouched, and stops with the current
info at level `tl`. -/
theorem exitDownTo_spec (d : FsmStaticData) (c : List StateId) (hchain : IsChain d c) :
    ∀ (k tl fuel : Nat) (m : Machine),
      tl + k < c.length →
      k + 1 ≤ fuel →
      c.length ≤ m.objs.length →
      m.currentInfo = some (lgetI c (tl + k)) →
      (∀ i, i < c.length → lgetI m.stackI i = lgetI c i) →
      (∀ i, i ≤ tl + k → ogetI m.objs i = some (lgetI c i)) →
      ∃ objs', exitDownTo fuel d tl m =
          some ({ m with currentInfo := some (lgetI c tl), objs := objs' },
                ((c.take (tl + k + 1)).drop (tl + 1)).reverse.map Action.exit) ∧
        objs'.length = m.objs.length ∧
        (∀ i, i ≤ tl → ogetI objs' i = ogetI m.objs i) ∧
        (∀ i, tl < i → i ≤ tl + k → ogetI objs' i = none) ∧
        (∀ i, tl + k < i → ogetI objs' i = ogetI m.objs i) := by
  intro k
  induction k with
  | zero =>
    intro tl fuel m hrange hfuel _hlen hcur _hstack _hobjs
    obtain ⟨f, rfl⟩ : ∃ f, fuel = f + 1 := ⟨fuel - 1, by omega⟩
    have hfind := hchain.2 tl (by omega)
    refine ⟨m.objs, ?_, rfl, fun i _ => rfl, fun i h1 h2 => by omega,
      fun i _ => rfl⟩
    have hm : ({ m with currentInfo := some (lgetI c tl), objs := m.objs } : Machine) = m := by
      apply machine_eq_update
      · simpa using hcur
      · rfl
      · rfl
    rw [exitDownTo_noop d f m _ _ tl (by simpa using hcur) hfind (le_refl tl), hm]
    have hnil : ((c.take (tl + 0 + 1)).drop (tl + 1)) = [] := by
      apply List.drop_eq_nil_of_le
      simp
    rw [hnil]
    rfl
  | succ k ih =>
    intro tl fuel m hrange hfuel hlen hcur hstack hobjs
    obtain ⟨f, rfl⟩ : ∃ f, fuel = f + 1 := ⟨fuel - 1, by omega⟩
    have hfindL : d.findState (lgetI c (tl + (k + 1))) =
        some ⟨lgetI c (tl + k), tl + (k + 1)⟩ := by
      have h := hchain.2 (tl + (k + 1)) (by omega)
      rw [show tl + (k + 1) - 1 = tl + k by omega] at h
      exact h
    have hobjL : ogetI m.objs (tl + (k + 1)) = some (lgetI c (tl + (k + 1))) :=
      hobjs _ (le_refl _)
    -- the machine after the loop body
    have hstk : lgetI m.stackI (tl + (k + 1) - 1) = lgetI c (tl + k) := by
      rw [show tl + (k + 1) - 1 = tl + k by omega]
      exact hstack (tl + k) (by omega)
    have ihres := ih tl f
      { m with objs := m.objs.set (tl + (k + 1)) none,
               currentInfo := some (lgetI c (tl + k)) }
      (by omega) (by omega) (by simpa using hlen) (by simp)
      (by intro i hi; simpa using hstack i hi)
      (by
        intro i hi
        have hne : tl + (k + 1) ≠ i := by omega
        show ogetI (m.objs.set (tl + (k + 1)) none) i = _
        rw [ogetI_set_ne _ _ _ _ hne]
        exact hobjs i (by omega))
    obtain ⟨objs', hEq, hlen', hle', hmid', hhigh'⟩ := ihres
    refine ⟨objs', ?_, ?_, ?_, ?_, ?_⟩
    · -- unfold one loop iteration
      simp only [exitDownTo, hcur, hfindL, doExit, hobjL]
      rw [if_pos (by omega : tl < tl + (k + 1))]
      simp only [hstk]
      rw [hEq]
      have htake : c.take (tl + (k + 1) + 1) =
          c.take (tl + (k + 1)) ++ [lgetI c (tl + (k + 1))] :=
        take_succ_dget nullStateId c (tl + (k + 1)) (by omega)
      have hlentake : (c.take (tl + (k + 1))).length = tl + (k + 1) := by
        simp [List.length_take]
        omega
      have htr : [Action.exit (lgetI c (tl + (k + 1)))] ++
          List.map Action.exit ((c.take (tl + k + 1)).drop (tl + 1)).reverse =
          List.map Action.exit ((c.take (tl + (k + 1) + 1)).drop (tl + 1)).reverse := by
        rw [htake, VecQueue.drop_append_le _ _ _ (by rw [hlentake]; omega)]
        rw [show tl + k + 1 = tl + (k + 1) by omega]
        simp
      simp only [htr]
    · simpa using hlen'
    · intro i hi
      rw [hle' i hi]
      show ogetI (m.objs.set (tl + (k + 1)) none) i = _
      rw [ogetI_set_ne _ _ _ _ (by omega)]
    · intro i h1 h2
      rcases Nat.lt_or_ge i (tl + k + 1) with hcase | hcase
      · exact hmid' i h1 (by omega)
      · have hieq : i = tl + (k + 1) := by omega
        rw [hhigh' i (by omega)]
        subst hieq
        show ogetI (m.objs.set (tl + (k + 1)) none) (tl + (k + 1)) = none
        exact ogetI_set_self _ _ _ (by omega)
    · intro i hi
      rw [hhigh' i (by omega)]
      show ogetI (m.objs.set (tl + (k + 1)) none) i = _
      rw [ogetI_set_ne _ _ _ _ (by omega)]


/-- Specification of the second loop of `doTransition`: starting from the
target-chain member at level `cl + k` it records the target chain into
the stack at levels `cl + k` down to `cl + 1` and ends on the member at
level `cl`, touching nothing else. -/
theorem lowerNext_spec (d : FsmStaticData) (t : List StateId) (ht : IsChain d t) :
    ∀ (k cl fuel : Nat) (m : Machine),
      cl + k < t.length →
      k + 1 ≤ fuel →
      t.length ≤ m.stackI.length →
      ∃ stack', lowerNext fuel d cl (lgetI t (cl + k)) m =
          some (lgetI t cl, { m with stackI := stack' }) ∧
        stack'.length = m.stackI.length ∧
        (∀ i, i ≤ cl → lgetI stack' i = lgetI m.stackI i) ∧
        (∀ i, cl < i → i ≤ cl + k → lgetI stack' i = lgetI t i) ∧
        (∀ i, cl + k < i → lgetI stack' i = lgetI m.stackI i) := by
  intro k
  induction k with
  | zero =>
    intro cl fuel m hrange hfuel _hlen
    obtain ⟨f, rfl⟩ : ∃ f, fuel = f + 1 := ⟨fuel - 1, by omega⟩
    simp only [Nat.add_zero] at hrange ⊢
    have hfind := ht.2 cl (by omega)
    refine ⟨m.stackI, ?_, rfl, fun i _ => rfl, fun i h1 h2 => by omega, fun i _ => rfl⟩
    simp only [lowerNext, hfind]
    rw [if_neg (by omega : ¬ cl < cl)]
  | succ k ih =>
    intro cl fuel m hrange hfuel hlen
    obtain ⟨f, rfl⟩ : ∃ f, fuel = f + 1 := ⟨fuel - 1, by omega⟩
    have hfindL : d.findState (lgetI t (cl + (k + 1))) =
        some ⟨lgetI t (cl + k), cl + (k + 1)⟩ := by
      have h := ht.2 (cl + (k + 1)) (by omega)
      rw [show cl + (k + 1) - 1 = cl + k by omega] at h
      exact h
    have ihres := ih cl f
      { m with stackI := m.stackI.set (cl + (k + 1)) (lgetI t (cl + (k + 1))) }
      (by omega) (by omega) (by simpa using hlen)
    obtain ⟨stack', hEq, hlen', hle', hmid', hhigh'⟩ := ihres
    refine ⟨stack', ?_, ?_, ?_, ?_, ?_⟩
    · simp only [lowerNext, hfindL]
      rw [if_pos (by omega : cl < cl + (k + 1))]
      rw [hEq]
    · simpa using hlen'
    · intro i hi
      rw [hle' i hi]
      show lgetI (m.stackI.set (cl + (k + 1)) (lgetI t (cl + (k + 1)))) i = _
      rw [lgetI_set_ne _ _ _ _ (by omega)]
    · intro i h1 h2
      rcases Nat.lt_or_ge i (cl + k + 1) with hc | hc
      · exact hmid' i h1 (by omega)
      · have hieq : i = cl + (k + 1) := by omega
        subst hieq
        rw [hhigh' _ (by omega)]
        show lgetI (m.stackI.set (cl + (k + 1)) (lgetI t (cl + (k + 1)))) (cl + (k + 1)) = _
        rw [lgetI_set_self _ _ _ (by omega)]
    · intro i hi
      rw [hhigh' i (by omega)]
      show lgetI (m.stackI.set (cl + (k + 1)) (lgetI t (cl + (k + 1)))) i = _
      rw [lgetI_set_ne _ _ _ _ (by omega)]


/-- The third loop of `doTransition` stops at once when the target-chain
member equals the current one. -/
theorem descendBoth_eq_stop (d : FsmStaticData) (level fuel : Nat) (m : Machine)
    (next : StateId) (hcur : m.currentInfo = some next) :
    descendBoth (fuel + 1) d level next m = some (next, m, []) := by
  simp [descendBoth, hcur]

/-- Specification of the third loop of `doTransition`: with both chains
at level `J + k` and the chains differing at every level above `J`, the
loop exits current levels `J + k` down to `J + 1` (leaf-to-root), records
the target chain into the stack at those levels, and stops at level `J`.
`J` is the divergence point: either the chains agree there or it is the
root level. -/
theorem descendBoth_spec (d : FsmStaticData) (c t : List StateId)
    (hc : IsChain d c) (ht : IsChain d t) (J : Nat)
    (hstop : lgetI t J = lgetI c J ∨ J = 0)
    (hdiff : ∀ i, J < i → i < c.length → i < t.length → lgetI c i ≠ lgetI t i) :
    ∀ (k fuel : Nat) (m : Machine),
      J + k < c.length →
      J + k < t.length →
      k + 1 ≤ fuel →
      c.length ≤ m.objs.length →
      t.length ≤ m.stackI.length →
      m.currentInfo = some (lgetI c (J + k)) →
      (∀ i, i ≤ J + k → i < c.length → lgetI m.stackI i = lgetI c i) →
      (∀ i, i ≤ J + k → ogetI m.objs i = some (lgetI c i)) →
      ∃ stack' objs',
        descendBoth fuel d (J + k) (lgetI t (J + k)) m =
          some (lgetI t J,
            ({ m with currentInfo := some (lgetI c J),
                      stackI := stack', objs := objs' },
            ((c.take (J + k + 1)).drop (J + 1)).reverse.map Action.exit)) ∧
        stack'.length = m.stackI.length ∧
        objs'.length = m.objs.length ∧
        (∀ i, i ≤ J → lgetI stack' i = lgetI m.stackI i) ∧
        (∀ i, J < i → i ≤ J + k → lgetI stack' i = lgetI t i) ∧
        (∀ i, J + k < i → lgetI stack' i = lgetI m.stackI i) ∧
        (∀ i, i ≤ J → ogetI objs' i = ogetI m.objs i) ∧
        (∀ i, J < i → i ≤ J + k → ogetI objs' i = none) ∧
        (∀ i, J + k < i → ogetI objs' i = ogetI m.objs i) := by
  intro k
  induction k with
  | zero =>
    intro fuel m hrc hrt hfuel _hlo _hls hcur _hstack _hobjs
    obtain ⟨f, rfl⟩ : ∃ f, fuel = f + 1 := ⟨fuel - 1, by omega⟩
    simp only [Nat.add_zero] at hrc hrt hcur ⊢
    have hguard : ¬ (lgetI t J ≠ lgetI c J ∧ 0 < J) := by
      rcases hstop with h | h
      · intro hcon; exact hcon.1 h
      · intro hcon; omega
    refine ⟨m.stackI, m.objs, ?_, rfl, rfl, fun i _ => rfl, fun i h1 h2 => by omega,
      fun i _ => rfl, fun i _ => rfl, fun i h1 h2 => by omega, fun i _ => rfl⟩
    simp only [descendBoth, hcur]
    rw [if_neg hguard]
    have hm : ({ m with currentInfo := some (lgetI c J), stackI := m.stackI, objs := m.objs } : Machine) = m :=
      machine_eq_update m _ _ _ hcur rfl rfl
    have hnil : ((c.take (J + 1)).drop (J + 1)) = [] := by
      apply List.drop_eq_nil_of_le
      simp
    rw [hnil, hm]
    rfl
  | succ k ih =>
    intro fuel m hrc hrt hfuel hlo hls hcur hstack hobjs
    obtain ⟨f, rfl⟩ : ∃ f, fuel = f + 1 := ⟨fuel - 1, by omega⟩
    have hne_ids : lgetI t (J + (k + 1)) ≠ lgetI c (J + (k + 1)) :=
      fun h => hdiff (J + (k + 1)) (by omega) (by omega) (by omega) h.symm
    have hfindc : d.findState (lgetI c (J + (k + 1))) =
        some ⟨lgetI c (J + k), J + (k + 1)⟩ := by
      have h := hc.2 (J + (k + 1)) (by omega)
      rw [show J + (k + 1) - 1 = J + k by omega] at h
      exact h
    have hfindt : d.findState (lgetI t (J + (k + 1))) =
        some ⟨lgetI t (J + k), J + (k + 1)⟩ := by
      have h := ht.2 (J + (k + 1)) (by omega)
      rw [show J + (k + 1) - 1 = J + k by omega] at h
      exact h
    have hobjL : ogetI m.objs (J + (k + 1)) = some (lgetI c (J + (k + 1))) :=
      hobjs _ (le_refl _)
    have hstk2 : lgetI (m.stackI.set (J + (k + 1)) (lgetI t (J + (k + 1))))
        (J + (k + 1) - 1) = lgetI c (J + k) := by
      rw [show J + (k + 1) - 1 = J + k by omega, lgetI_set_ne _ _ _ _ (by omega)]
      exact hstack _ (by omega) (by omega)
    have ihres := ih f
      { m with stackI := m.stackI.set (J + (k + 1)) (lgetI t (J + (k + 1))),
               objs := m.objs.set (J + (k + 1)) none,
               currentInfo := some (lgetI c (J + k)) }
      (by omega) (by omega) (by omega) (by simpa using hlo) (by simpa using hls)
      (by simp)
      (by
        intro i hi hic
        show lgetI (m.stackI.set (J + (k + 1)) (lgetI t (J + (k + 1)))) i = _
        rw [lgetI_set_ne _ _ _ _ (by omega)]
        exact hstack i (by omega) hic)
      (by
        intro i hi
        show ogetI (m.objs.set (J + (k + 1)) none) i = _
        rw [ogetI_set_ne _ _ _ _ (by omega)]
        exact hobjs i (by omega))
    obtain ⟨stack', objs', hEq, hlens, hleno, hsle, hsmid, hshigh, hole, homid, hohigh⟩ := ihres
    refine ⟨stack', objs', ?_, ?_, ?_, ?_, ?_, ?_, ?_, ?_, ?_⟩
    · simp only [descendBoth, hcur, doExit, hfindc, hobjL]
      rw [if_pos (⟨hne_ids, by omega⟩ : lgetI t (J + (k + 1)) ≠ lgetI c (J + (k + 1)) ∧ 0 < J + (k + 1))]
      simp only [hstk2, hfindt]
      rw [show J + (k + 1) - 1 = J + k by omega]
      rw [hEq]
      have htake : c.take (J + (k + 1) + 1) =
          c.take (J + (k + 1)) ++ [lgetI c (J + (k + 1))] :=
        take_succ_dget nullStateId c (J + (k + 1)) (by omega)
      have hlentake : (c.take (J + (k + 1))).length = J + (k + 1) := by
        simp [List.length_take]
        omega
      have htr : [Action.exit (lgetI c (J + (k + 1)))] ++
          List.map Action.exit ((c.take (J + k + 1)).drop (J + 1)).reverse =
          List.map Action.exit ((c.take (J + (k + 1) + 1)).drop (J + 1)).reverse := by
        rw [htake, VecQueue.drop_append_le _ _ _ (by rw [hlentake]; omega)]
        rw [show J + k + 1 = J + (k + 1) by omega]
        simp
      simp only [htr]
    · simpa using hlens
    · simpa using hleno
    · intro i hi
      rw [hsle i hi]
      show lgetI (m.stackI.set (J + (k + 1)) (lgetI t (J + (k + 1)))) i = _
      rw [lgetI_set_ne _ _ _ _ (by omega)]
    · intro i h1 h2
      rcases Nat.lt_or_ge i (J + k + 1) with hcs | hcs
      · exact hsmid i h1 (by omega)
      · have hieq : i = J + (k + 1) := by omega
        subst hieq
        rw [hshigh _ (by omega)]
        show lgetI (m.stackI.set (J + (k + 1)) (lgetI t (J + (k + 1)))) (J + (k + 1)) = _
        rw [lgetI_set_self _ _ _ (by omega)]
    · intro i hi
      rw [hshigh i (by omega)]
      show lgetI (m.stackI.set (J + (k + 1)) (lgetI t (J + (k + 1)))) i = _
      rw [lgetI_set_ne _ _ _ _ (by omega)]
    · intro i hi
      rw [hole i hi]
      show ogetI (m.objs.set (J + (k + 1)) none) i = _
      rw [ogetI_set_ne _ _ _ _ (by omega)]
    · intro i h1 h2
      rcases Nat.lt_or_ge i (J + k + 1) with hcs | hcs
      · exact homid i h1 (by omega)
      · have hieq : i = J + (k + 1) := by omega
        subst hieq
        rw [hohigh _ (by omega)]
        show ogetI (m.objs.set (J + (k + 1)) none) (J + (k + 1)) = none
        exact ogetI_set_self _ _ _ (by omega)
    · intro i hi
      rw [hohigh i (by omega)]
      show ogetI (m.objs.set (J + (k + 1)) none) i = _
      rw [ogetI_set_ne _ _ _ _ (by omega)]


/-- Specification of the final loop of `doTransition`: starting with the
current info at level `j0` on target chain `t` whose members are recorded
in the stack at levels `j0 + 1 .. j0 + k`, it enters those states in
root-to-leaf order and ends at level `j0 + k`. -/
theorem entryUp_spec (d : FsmStaticData) (t : List StateId) (ht : IsChain d t) :
    ∀ (k j0 fuel : Nat) (m : Machine),
      j0 + k < t.length →
      k + 1 ≤ fuel →
      t.length ≤ m.objs.length →
      m.currentInfo = some (lgetI t j0) →
      (∀ i, j0 < i → i ≤ j0 + k → lgetI m.stackI i = lgetI t i) →
      ∃ objs',
        entryUp fuel d (j0 + k) m =
          some ({ m with currentInfo := some (lgetI t (j0 + k)), objs := objs' },
                ((t.take (j0 + k + 1)).drop (j0 + 1)).map Action.enter) ∧
        objs'.length = m.objs.length ∧
        (∀ i, i ≤ j0 → ogetI objs' i = ogetI m.objs i) ∧
        (∀ i, j0 < i → i ≤ j0 + k → ogetI objs' i = some (lgetI t i)) ∧
        (∀ i, j0 + k < i → ogetI objs' i = ogetI m.objs i) := by
  intro k
  induction k with
  | zero =>
    intro j0 fuel m hrange hfuel _hlen hcur _hstack
    obtain ⟨f, rfl⟩ : ∃ f, fuel = f + 1 := ⟨fuel - 1, by omega⟩
    simp only [Nat.add_zero] at hrange hcur ⊢
    have hfind := ht.2 j0 (by omega)
    refine ⟨m.objs, ?_, rfl, fun i _ => rfl, fun i h1 h2 => by omega, fun i _ => rfl⟩
    simp only [entryUp, hcur, hfind]
    rw [if_neg (by omega : ¬ j0 < j0)]
    have hm : ({ m with currentInfo := some (lgetI t j0), objs := m.objs } : Machine) = m :=
      machine_eq_update m _ _ _ hcur rfl rfl
    have hnil : ((t.take (j0 + 1)).drop (j0 + 1)) = [] := by
      apply List.drop_eq_nil_of_le
      simp
    rw [hnil, hm]
    rfl
  | succ k ih =>
    intro j0 fuel m hrange hfuel hlen hcur hstack
    obtain ⟨f, rfl⟩ : ∃ f, fuel = f + 1 := ⟨fuel - 1, by omega⟩
    have hfind0 := ht.2 j0 (by omega)
    have hstk1 : lgetI m.stackI (j0 + 1) = lgetI t (j0 + 1) :=
      hstack (j0 + 1) (by omega) (by omega)
    have hfind1 : d.findState (lgetI t (j0 + 1)) = some ⟨lgetI t j0, j0 + 1⟩ := by
      have h := ht.2 (j0 + 1) (by omega)
      rw [show j0 + 1 - 1 = j0 by omega] at h
      exact h
    have ihres := ih (j0 + 1) f
      { m with currentInfo := some (lgetI t (j0 + 1)),
               objs := m.objs.set (j0 + 1) (some (lgetI t (j0 + 1))) }
      (by omega) (by omega) (by simpa using hlen) (by simp)
      (by
        intro i h1 h2
        show lgetI m.stackI i = _
        exact hstack i (by omega) (by omega))
    obtain ⟨objs', hEq, hlen', hle', hmid', hhigh'⟩ := ihres
    refine ⟨objs', ?_, ?_, ?_, ?_, ?_⟩
    · simp only [entryUp, hcur, hfind0, doEntry, hstk1, hfind1]
      rw [if_pos (by omega : j0 < j0 + (k + 1))]
      rw [show j0 + (k + 1) = j0 + 1 + k by omega]
      rw [hEq]
      have hlentake : (t.take (j0 + 1 + k + 1)).length = j0 + 1 + k + 1 := by
        simp [List.length_take]
        omega
      have hsplit : (t.take (j0 + 1 + k + 1)).drop (j0 + 1) =
          lgetI t (j0 + 1) :: (t.take (j0 + 1 + k + 1)).drop (j0 + 1 + 1) := by
        have h := drop_eq_cons_dget nullStateId (t.take (j0 + 1 + k + 1)) (j0 + 1)
          (by rw [hlentake]; omega)
        rw [dget_of_take nullStateId t (j0 + 1) (j0 + 1 + k + 1) (by omega) (by omega)] at h
        exact h
      have htr : [Action.enter (lgetI t (j0 + 1))] ++
          List.map Action.enter ((t.take (j0 + 1 + k + 1)).drop (j0 + 1 + 1)) =
          List.map Action.enter ((t.take (j0 + 1 + k + 1)).drop (j0 + 1)) := by
        rw [hsplit]
        simp
      simp only [htr]
    · simpa using hlen'
    · intro i hi
      rw [hle' i (by omega)]
      show ogetI (m.objs.set (j0 + 1) (some (lgetI t (j0 + 1)))) i = _
      rw [ogetI_set_ne _ _ _ _ (by omega)]
    · intro i h1 h2
      rcases Nat.lt_or_ge (j0 + 1) i with hcs | hcs
      · rw [show i = j0 + 1 + (i - (j0 + 1)) by omega] at h2 ⊢
        exact hmid' _ (by omega) (by omega)
      · have hieq : i = j0 + 1 := by omega
        subst hieq
        rw [hle' _ (by omega)]
        show ogetI (m.objs.set (j0 + 1) (some (lgetI t (j0 + 1)))) (j0 + 1) = _
        rw [ogetI_set_self _ _ _ (by omega)]
    · intro i hi
      rw [hhigh' i (by omega)]
      show ogetI (m.objs.set (j0 + 1) (some (lgetI t (j0 + 1)))) i = _
      rw [ogetI_set_ne _ _ _ _ (by omega)]


/-- Splitting a drop at an intermediate index, reversed: used to merge
the exit traces of consecutive loops. -/
theorem drop_reverse_append (l : List StateId) (a b : Nat) (hab : a ≤ b)
    (hbl : b ≤ l.length) :
    (l.drop b).reverse ++ ((l.take b).drop a).reverse = (l.drop a).reverse := by
  rw [← List.reverse_append]
  congr 1
  conv_rhs => rw [← List.take_append_drop b l]
  rw [VecQueue.drop_append_le _ _ _ (by simp [List.length_take]; omega)]


/-- C1: on a well-formed running machine with active chain `c`, a
transition to a registered target with ancestor chain `t` whose leaf
differs from `c`'s leaf exits exactly the states of `c` above the common
prefix, leaf-to-root, then enters exactly the states of `t` above the
common prefix, root-to-leaf (trace = exits ++ entries, so no exit follows
any entry and the common ancestors are neither exited nor entered), and
leaves a well-formed machine on chain `t`. -/
theorem c1_transition_exit_entry (d : FsmStaticData) (c t : List StateId)
    (m : Machine) (fuel : Nat)
    (hM : MWF d c m) (ht : IsChain d t)
    (hlt : lgetI t (t.length - 1) ≠ lgetI c (c.length - 1))
    (hslen : t.length ≤ m.stackI.length)
    (holen : t.length ≤ m.objs.length)
    (hfuel : c.length + t.length + 2 ≤ fuel) :
    ∃ m', doTransitionF fuel d (lgetI t (t.length - 1)) m =
        some (m', ((c.drop (lcpLen c t)).reverse.map Action.exit) ++
                  ((t.drop (lcpLen c t)).map Action.enter)) ∧
      MWF d t m' := by
  obtain ⟨f, rfl⟩ : ∃ f, fuel = f + 1 := ⟨fuel - 1, by omega⟩
  obtain ⟨hchain, hcur, hstack, hobjs, hnone, holen0⟩ := hM
  have hcpos : 0 < c.length := List.length_pos.mpr hchain.1
  have htpos : 0 < t.length := List.length_pos.mpr ht.1
  have hKc' := lcpLen_le_left c t
  have hKt' := lcpLen_le_right c t
  have hfind_t : d.findState (lgetI t (t.length - 1)) =
      some ⟨lgetI t (t.length - 1 - 1), t.length - 1⟩ := ht.2 _ (by omega)
  have hneq_leaf : ¬ (lgetI c (c.length - 1) = lgetI t (t.length - 1)) :=
    fun h => hlt h.symm
  have hKbound : lcpLen c t ≤ min (c.length - 1) (t.length - 1) + 1 := by omega
  have hKne : ¬ (lcpLen c t = c.length ∧ lcpLen c t = t.length) := by
    intro hcon
    exact hneq_leaf (by
      have := lcpLen_agree c t (c.length - 1) (by omega)
      rw [show c.length - 1 = t.length - 1 by omega] at this ⊢
      exact this)
  -- ### Phase 1 summary
  have phase1 : ∃ objs1,
      exitDownTo (f + 1) d (t.length - 1) m =
        some ({ m with currentInfo := some (lgetI c (min (c.length - 1) (t.length - 1))), objs := objs1 },
          ((c.drop (min (c.length - 1) (t.length - 1) + 1)).reverse.map Action.exit)) ∧
      objs1.length = m.objs.length ∧
      (∀ i, i ≤ min (c.length - 1) (t.length - 1) → ogetI objs1 i = some (lgetI c i)) ∧
      (∀ i, min (c.length - 1) (t.length - 1) < i → i < objs1.length → ogetI objs1 i = none) := by
    rcases Nat.lt_or_ge (t.length - 1) (c.length - 1) with hcase | hcase
    · have hmin : min (c.length - 1) (t.length - 1) = t.length - 1 := by omega
      obtain ⟨objs1, hEq, hlen1, hlow, hmid, hhigh⟩ :=
        exitDownTo_spec d c hchain (c.length - 1 - (t.length - 1)) (t.length - 1) (f + 1) m
          (by omega) (by omega) holen0
          (by rw [show (t.length - 1) + (c.length - 1 - (t.length - 1)) = c.length - 1 by omega]
              exact hcur)
          hstack
          (by intro i hi; exact hobjs i (by omega))
      rw [show (t.length - 1) + (c.length - 1 - (t.length - 1)) = c.length - 1 by omega] at hEq hmid hhigh
      rw [hmin]
      refine ⟨objs1, ?_, hlen1,
        (fun i hi => (hlow i hi).trans (hobjs i (by omega))), ?_⟩
      · rw [hEq]
        rw [show c.length - 1 + 1 = c.length by omega]
        simp
      · intro i h1 h2
        rcases Nat.lt_or_ge (c.length - 1) i with hcs | hcs
        · rw [hhigh i (by omega)]
          exact hnone i (by omega) (by omega)
        · exact hmid i (by omega) (by omega)
    · have hmin : min (c.length - 1) (t.length - 1) = c.length - 1 := by omega
      have hfind_leaf := hchain.2 (c.length - 1) (by omega)
      rw [hmin]
      refine ⟨m.objs, ?_, rfl, (fun i hi => hobjs i (by omega)),
        (fun i h1 h2 => hnone i h2 (by omega))⟩
      rw [exitDownTo_noop d f m _ _ (t.length - 1) hcur hfind_leaf
        (by show c.length - 1 ≤ t.length - 1; omega)]
      have hm := machine_eq_update m (some (lgetI c (c.length - 1))) m.stackI m.objs hcur rfl rfl
      rw [hm, show c.length - 1 + 1 = c.length by omega, List.drop_length]
      rfl
  obtain ⟨objs1, hP1, hlen1, hobj1lo, hobj1hi⟩ := phase1
  have hfind_c1 : d.findState (lgetI c (min (c.length - 1) (t.length - 1))) =
      some ⟨lgetI c (min (c.length - 1) (t.length - 1) - 1), min (c.length - 1) (t.length - 1)⟩ := hchain.2 _ (by omega)
  -- ### Phase 2 summary
  obtain ⟨stack2, hP2, hlen2, hs2lo, hs2mid, hs2hi⟩ := lowerNext_spec d t ht
    (t.length - 1 - (min (c.length - 1) (t.length - 1))) (min (c.length - 1) (t.length - 1)) (f + 1)
    { m with currentInfo := some (lgetI c (min (c.length - 1) (t.length - 1))), objs := objs1 }
    (by omega) (by omega) (by simpa using hslen)
  rw [show min (c.length - 1) (t.length - 1) + (t.length - 1 - (min (c.length - 1) (t.length - 1))) = t.length - 1 by omega] at hP2 hs2mid hs2hi
  have hlen2' : stack2.length = m.stackI.length := hlen2
  have hs2lo' : ∀ i, i ≤ min (c.length - 1) (t.length - 1) → lgetI stack2 i = lgetI m.stackI i := hs2lo
  have hs2hi' : ∀ i, t.length - 1 < i → lgetI stack2 i = lgetI m.stackI i := hs2hi
  -- ### Case split on the relation between the common prefix and m0
  rcases Nat.lt_or_ge (min (c.length - 1) (t.length - 1)) (lcpLen c t) with hKnest | hKdiv
  · -- nested chains: the common prefix length is m0 + 1
    have hKeq : lcpLen c t = min (c.length - 1) (t.length - 1) + 1 := by omega
    have hagree_m0 : lgetI t (min (c.length - 1) (t.length - 1)) = lgetI c (min (c.length - 1) (t.length - 1)) :=
      (lcpLen_agree c t (min (c.length - 1) (t.length - 1)) (by omega)).symm
    have hP3 := descendBoth_eq_stop d (min (c.length - 1) (t.length - 1)) f
      { m with currentInfo := some (lgetI c (min (c.length - 1) (t.length - 1))), objs := objs1, stackI := stack2 }
      (lgetI t (min (c.length - 1) (t.length - 1))) (by simp [hagree_m0])
    obtain ⟨objs5, hP5, hlen5, ho5lo, ho5mid, ho5hi⟩ := entryUp_spec d t ht
      (t.length - 1 - (min (c.length - 1) (t.length - 1))) (min (c.length - 1) (t.length - 1)) (f + 1)
      { m with currentInfo := some (lgetI c (min (c.length - 1) (t.length - 1))), objs := objs1, stackI := stack2 }
      (by omega) (by omega) (by show t.length ≤ objs1.length; omega)
      (by simp [hagree_m0])
      (by intro i h1 h2
          show lgetI stack2 i = _
          exact hs2mid i h1 (by omega))
    rw [show min (c.length - 1) (t.length - 1) + (t.length - 1 - (min (c.length - 1) (t.length - 1))) = t.length - 1 by omega] at hP5 ho5mid ho5hi
    refine ⟨{ m with currentInfo := some (lgetI t (t.length - 1)), stackI := stack2, objs := objs5 }, ?_, ?_⟩
    · simp only [doTransitionF, hfind_t, hcur]
      rw [if_neg hneq_leaf]
      rw [hP1]
      simp only [hfind_c1]
      rw [hP2]
      dsimp only
      rw [hP3]
      dsimp only
      rw [if_neg (show ¬ (lgetI t (min (c.length - 1) (t.length - 1)) ≠ lgetI c (min (c.length - 1) (t.length - 1))) from by simp [hagree_m0])]
      dsimp only
      rw [hP5]
      rw [hKeq]
      have htk : t.take (t.length - 1 + 1) = t := by
        rw [show t.length - 1 + 1 = t.length by omega]
        simp
      rw [htk]
      simp
    · refine ⟨ht, by simp, ?_, ?_, ?_, ?_⟩
      · intro i hi
        show lgetI stack2 i = lgetI t i
        rcases Nat.lt_or_ge (min (c.length - 1) (t.length - 1)) i with hcs | hcs
        · exact hs2mid i hcs (by omega)
        · have h1 : lgetI stack2 i = lgetI m.stackI i := hs2lo i hcs
          rw [h1, hstack i (by omega)]
          exact (lcpLen_agree c t i (by omega)).symm.symm ▸ rfl
      · intro i hi
        show ogetI objs5 i = some (lgetI t i)
        rcases Nat.lt_or_ge (min (c.length - 1) (t.length - 1)) i with hcs | hcs
        · exact ho5mid i hcs (by omega)
        · have h1 : ogetI objs5 i = ogetI objs1 i := ho5lo i hcs
          rw [h1, hobj1lo i hcs]
          rw [lcpLen_agree c t i (by omega)]
      · intro i hilen hge
        show ogetI objs5 i = none
        rw [ho5hi i (by omega)]
        show ogetI objs1 i = none
        refine hobj1hi i (by omega) ?_
        have : objs5.length = objs1.length := hlen5
        simp only [Machine.objs] at hilen
        omega
      · show t.length ≤ objs5.length
        have : objs5.length = objs1.length := hlen5
        omega
  · -- genuine divergence at or below m0
    have hKc : lcpLen c t < c.length := by omega
    have hKt : lcpLen c t < t.length := by omega
    have hstop : lgetI t (lcpLen c t - 1) = lgetI c (lcpLen c t - 1) ∨ lcpLen c t - 1 = 0 := by
      rcases Nat.eq_zero_or_pos (lcpLen c t) with h0 | hpos
      · right
        omega
      · exact Or.inl (lcpLen_agree c t (lcpLen c t - 1) (by omega)).symm
    have hdiff : ∀ i, lcpLen c t - 1 < i → i < c.length → i < t.length →
        lgetI c i ≠ lgetI t i := by
      intro i h1 h2 h3
      rcases Nat.eq_zero_or_pos (lcpLen c t) with h0 | hpos
      · exact chain_ne_of_lcp_le d c t hchain ht hKc hKt i (by omega) h2 h3
      · exact chain_ne_of_lcp_le d c t hchain ht hKc hKt i (by omega) h2 h3
    obtain ⟨stack3, objs3, hP3, hlen3s, hlen3o, hs3lo, hs3mid, hs3hi, ho3lo, ho3mid, ho3hi⟩ :=
      descendBoth_spec d c t hchain ht (lcpLen c t - 1) hstop hdiff
        ((min (c.length - 1) (t.length - 1)) - (lcpLen c t - 1)) (f + 1)
        { m with currentInfo := some (lgetI c (min (c.length - 1) (t.length - 1))), objs := objs1, stackI := stack2 }
        (by omega) (by omega) (by omega)
        (by show c.length ≤ objs1.length
            omega)
        (by show t.length ≤ stack2.length
            omega)
        (by show some (lgetI c (min (c.length - 1) (t.length - 1))) = some (lgetI c (lcpLen c t - 1 + ((min (c.length - 1) (t.length - 1)) - (lcpLen c t - 1))))
            rw [show lcpLen c t - 1 + ((min (c.length - 1) (t.length - 1)) - (lcpLen c t - 1)) = min (c.length - 1) (t.length - 1) by omega])
        (by intro i h1 h2
            show lgetI stack2 i = lgetI c i
            have hi0 : i ≤ min (c.length - 1) (t.length - 1) := by omega
            exact (hs2lo' i hi0).trans (hstack i h2))
        (by intro i h1
            show ogetI objs1 i = some (lgetI c i)
            exact hobj1lo i (by omega))
    rw [show lcpLen c t - 1 + ((min (c.length - 1) (t.length - 1)) - (lcpLen c t - 1)) = min (c.length - 1) (t.length - 1) by omega]
      at hP3 hs3mid hs3hi ho3mid ho3hi
    have hlen3s' : stack3.length = stack2.length := hlen3s
    have hlen3o' : objs3.length = objs1.length := hlen3o
    have hs3lo' : ∀ i, i ≤ lcpLen c t - 1 → lgetI stack3 i = lgetI stack2 i := hs3lo
    have hs3hi' : ∀ i, min (c.length - 1) (t.length - 1) < i → lgetI stack3 i = lgetI stack2 i := hs3hi
    have ho3lo' : ∀ i, i ≤ lcpLen c t - 1 → ogetI objs3 i = ogetI objs1 i := ho3lo
    have ho3hi' : ∀ i, min (c.length - 1) (t.length - 1) < i → ogetI objs3 i = ogetI objs1 i := ho3hi
    rcases Nat.eq_zero_or_pos (lcpLen c t) with hK0 | hKpos
    · -- no common ancestor at all: the level-0 special case fires
      rw [hK0] at hP3 hs3lo' hs3mid ho3lo' ho3mid
      simp only [Nat.zero_sub] at hP3 hs3lo' hs3mid ho3lo' ho3mid
      have hne0 : lgetI t 0 ≠ lgetI c 0 := by
        have h := lcpLen_ne c t hKc hKt
        rw [hK0] at h
        exact fun e => h e.symm
      have hfind_c0 : d.findState (lgetI c 0) = some ⟨lgetI c 0, 0⟩ := by
        have h := hchain.2 0 (by omega)
        simpa using h
      have hfind_t0 : d.findState (lgetI t 0) = some ⟨lgetI t 0, 0⟩ := by
        have h := ht.2 0 (by omega)
        simpa using h
      have hobj30 : ogetI objs3 0 = some (lgetI c 0) := by
        rw [ho3lo' 0 (by omega)]
        exact hobj1lo 0 (by omega)
      obtain ⟨objs5, hP5, hlen5, ho5lo, ho5mid, ho5hi⟩ := entryUp_spec d t ht
        (t.length - 1) 0 (f + 1)
        { m with currentInfo := some (lgetI t 0), stackI := (stack3.set 0 (lgetI t 0)), objs := (objs3.set 0 none).set 0 (some (lgetI t 0)) }
        (by omega) (by omega)
        (by show t.length ≤ ((objs3.set 0 none).set 0 (some (lgetI t 0))).length
            simp only [List.length_set]
            omega)
        rfl
        (by intro i h1 h2
            show lgetI (stack3.set 0 (lgetI t 0)) i = lgetI t i
            rw [lgetI_set_ne _ _ _ _ (by omega)]
            rcases Nat.lt_or_ge (min (c.length - 1) (t.length - 1)) i with hcs | hcs
            · rw [hs3hi' i hcs]
              exact hs2mid i hcs (by omega)
            · exact hs3mid i (by omega) (by omega))
      simp only [Nat.zero_add] at hP5 ho5mid ho5hi
      refine ⟨{ m with currentInfo := some (lgetI t (t.length - 1)), stackI := stack3.set 0 (lgetI t 0), objs := objs5 }, ?_, ?_⟩
      · simp only [doTransitionF, hfind_t, hcur]
        rw [if_neg hneq_leaf]
        rw [hP1]
        simp only [hfind_c1]
        rw [hP2]
        try dsimp only
        rw [hP3]
        try dsimp only
        rw [if_pos hne0]
        simp only [doExit, hfind_c0, hobj30, doEntry, hfind_t0]
        try dsimp only
        rw [hP5]
        try dsimp only
        rw [hK0]
        have htk : t.take (t.length - 1 + 1) = t := by
          rw [show t.length - 1 + 1 = t.length by omega]
          simp
        rw [htk]
        have hcsplit : c = lgetI c 0 :: c.drop 1 := by
          have h := drop_eq_cons_dget nullStateId c 0 (by omega)
          simpa using h
        have htsplit : t = lgetI t 0 :: t.drop 1 := by
          have h := drop_eq_cons_dget nullStateId t 0 (by omega)
          simpa using h
        have hmerge1 : List.map Action.exit (c.drop ((min (c.length - 1) (t.length - 1)) + 1)).reverse ++
            List.map Action.exit ((c.take ((min (c.length - 1) (t.length - 1)) + 1)).drop (0 + 1)).reverse =
            List.map Action.exit (c.drop 1).reverse := by
          rw [show (0 + 1 : Nat) = 1 from rfl]
          rw [← List.map_append, drop_reverse_append c 1 ((min (c.length - 1) (t.length - 1)) + 1) (by omega) (by omega)]
        have hexits : List.map Action.exit (c.drop 1).reverse ++ [Action.exit (lgetI c 0)] =
            List.map Action.exit c.reverse := by
          conv_rhs => rw [hcsplit]
          simp
        have hentries : Action.enter (lgetI t 0) :: List.map Action.enter (t.drop 1) =
            List.map Action.enter t := by
          conv_rhs => rw [htsplit]
          simp
        have hfinal : List.map Action.exit (c.drop ((min (c.length - 1) (t.length - 1)) + 1)).reverse ++
            List.map Action.exit ((c.take ((min (c.length - 1) (t.length - 1)) + 1)).drop (0 + 1)).reverse ++
            ([Action.exit (lgetI c 0)] ++ [Action.enter (lgetI t 0)]) ++
            List.map Action.enter (t.drop 1) =
            List.map Action.exit (c.drop 0).reverse ++ List.map Action.enter (t.drop 0) := by
          rw [List.drop_zero, List.drop_zero]
          rw [hmerge1]
          rw [← List.append_assoc (List.map Action.exit (c.drop 1).reverse)]
          rw [hexits]
          rw [List.append_assoc]
          rw [show ([Action.enter (lgetI t 0)] : List Action) ++ List.map Action.enter (t.drop 1) =
              Action.enter (lgetI t 0) :: List.map Action.enter (t.drop 1) from rfl]
          rw [hentries]
        rw [hfinal]
      · refine ⟨ht, rfl, ?_, ?_, ?_, ?_⟩
        · intro i hi
          show lgetI (stack3.set 0 (lgetI t 0)) i = lgetI t i
          rcases Nat.eq_zero_or_pos i with hi0 | hipos
          · subst hi0
            rw [lgetI_set_self _ _ _ (by omega)]
          · rw [lgetI_set_ne _ _ _ _ (by omega)]
            rcases Nat.lt_or_ge (min (c.length - 1) (t.length - 1)) i with hcs | hcs
            · rw [hs3hi' i hcs]
              exact hs2mid i hcs (by omega)
            · exact hs3mid i (by omega) hcs
        · intro i hi
          show ogetI objs5 i = some (lgetI t i)
          rcases Nat.eq_zero_or_pos i with hi0 | hipos
          · subst hi0
            rw [ho5lo 0 (le_refl 0)]
            show ogetI ((objs3.set 0 none).set 0 (some (lgetI t 0))) 0 = _
            rw [ogetI_set_self _ _ _ (by simp only [List.length_set]; omega)]
          · exact ho5mid i hipos (by omega)
        · intro i hilen hge
          show ogetI objs5 i = none
          rw [ho5hi i (by omega)]
          show ogetI ((objs3.set 0 none).set 0 (some (lgetI t 0))) i = none
          rw [ogetI_set_ne _ _ _ _ (by omega), ogetI_set_ne _ _ _ _ (by omega)]
          rw [ho3hi' i (by omega)]
          refine hobj1hi i (by omega) ?_
          have hilen' : i < objs5.length := hilen
          have hlen5' : objs5.length = ((objs3.set 0 none).set 0 (some (lgetI t 0))).length := hlen5
          simp only [List.length_set] at hlen5'
          omega
        · show t.length ≤ objs5.length
          have hlen5' : objs5.length = ((objs3.set 0 none).set 0 (some (lgetI t 0))).length := hlen5
          simp only [List.length_set] at hlen5'
          omega
    · -- common ancestors exist: the loop stops by id equality, no level-0 case
      have hagree_J : lgetI t (lcpLen c t - 1) = lgetI c (lcpLen c t - 1) :=
        (lcpLen_agree c t (lcpLen c t - 1) (by omega)).symm
      obtain ⟨objs5, hP5, hlen5, ho5lo, ho5mid, ho5hi⟩ := entryUp_spec d t ht
        (t.length - 1 - (lcpLen c t - 1)) (lcpLen c t - 1) (f + 1)
        { m with currentInfo := some (lgetI c (lcpLen c t - 1)), stackI := stack3, objs := objs3 }
        (by omega) (by omega)
        (by show t.length ≤ objs3.length
            omega)
        (by show some (lgetI c (lcpLen c t - 1)) = some (lgetI t (lcpLen c t - 1))
            rw [hagree_J])
        (by intro i h1 h2
            show lgetI stack3 i = lgetI t i
            rcases Nat.lt_or_ge (min (c.length - 1) (t.length - 1)) i with hcs | hcs
            · rw [hs3hi' i hcs]
              exact hs2mid i hcs (by omega)
            · exact hs3mid i h1 hcs)
      rw [show lcpLen c t - 1 + (t.length - 1 - (lcpLen c t - 1)) = t.length - 1 by omega]
        at hP5 ho5mid ho5hi
      refine ⟨{ m with currentInfo := some (lgetI t (t.length - 1)), stackI := stack3, objs := objs5 }, ?_, ?_⟩
      · simp only [doTransitionF, hfind_t, hcur]
        rw [if_neg hneq_leaf]
        rw [hP1]
        simp only [hfind_c1]
        rw [hP2]
        try dsimp only
        rw [hP3]
        try dsimp only
        rw [if_neg (show ¬ (lgetI t (lcpLen c t - 1) ≠ lgetI c (lcpLen c t - 1)) from by
          simp [hagree_J])]
        try dsimp only
        rw [hP5]
        try dsimp only
        have htk : t.take (t.length - 1 + 1) = t := by
          rw [show t.length - 1 + 1 = t.length by omega]
          simp
        rw [htk]
        rw [show lcpLen c t - 1 + 1 = lcpLen c t by omega]
        have hmerge : List.map Action.exit (c.drop ((min (c.length - 1) (t.length - 1)) + 1)).reverse ++
            List.map Action.exit ((c.take ((min (c.length - 1) (t.length - 1)) + 1)).drop (lcpLen c t)).reverse =
            List.map Action.exit (c.drop (lcpLen c t)).reverse := by
          rw [← List.map_append, drop_reverse_append c (lcpLen c t) ((min (c.length - 1) (t.length - 1)) + 1) (by omega) (by omega)]
        rw [List.append_nil, hmerge]
      · refine ⟨ht, rfl, ?_, ?_, ?_, ?_⟩
        · intro i hi
          show lgetI stack3 i = lgetI t i
          rcases Nat.lt_or_ge (min (c.length - 1) (t.length - 1)) i with hcs | hcs
          · rw [hs3hi' i hcs]
            exact hs2mid i hcs (by omega)
          · rcases Nat.lt_or_ge (lcpLen c t - 1) i with hcs2 | hcs2
            · exact hs3mid i hcs2 hcs
            · rw [hs3lo' i hcs2, hs2lo' i (by omega), hstack i (by omega)]
              exact lcpLen_agree c t i (by omega)
        · intro i hi
          show ogetI objs5 i = some (lgetI t i)
          rcases Nat.lt_or_ge (lcpLen c t - 1) i with hcs | hcs
          · exact ho5mid i hcs (by omega)
          · rw [ho5lo i hcs]
            show ogetI objs3 i = _
            rw [ho3lo' i hcs, hobj1lo i (by omega), lcpLen_agree c t i (by omega)]
        · intro i hilen hge
          show ogetI objs5 i = none
          rw [ho5hi i (by omega)]
          show ogetI objs3 i = none
          rw [ho3hi' i (by omega)]
          refine hobj1hi i (by omega) ?_
          have hilen' : i < objs5.length := hilen
          have hlen5' : objs5.length = objs3.length := hlen5
          omega
        · show t.length ≤ objs5.length
          have hlen5' : objs5.length = objs3.length := hlen5
          omega

theorem c1_witness :
    ∃ m', doTransitionF 10 dEx 3 mEx = some (m', [Action.exit 2, Action.enter 3]) ∧
      MWF dEx [0, 1, 3] m' := by
  obtain ⟨m', h1, h2⟩ := c1_transition_exit_entry dEx [0, 1, 2] [0, 1, 3] mEx 10
    (by decide) (by decide) (by decide) (by decide) (by decide) (by decide)
  have e1 : lgetI ([0, 1, 3] : List StateId) (([0, 1, 3] : List StateId).length - 1) = 3 := by
    decide
  have e2 : (((([0, 1, 2] : List StateId).drop (lcpLen [0, 1, 2] [0, 1, 3])).reverse.map Action.exit) ++
      ((([0, 1, 3] : List StateId).drop (lcpLen [0, 1, 2] [0, 1, 3])).map Action.enter)) =
      [Action.exit 2, Action.enter 3] := by
    decide
  rw [e1, e2] at h1
  exact ⟨m', h1, h2⟩

/-! ### C8: typed state accessors on a running machine -/

theorem mem_iff_lgetI (c : List StateId) (T : StateId) :
    T ∈ c ↔ ∃ i, i < c.length ∧ lgetI c i = T := by
  induction c with
  | nil => simp
  | cons a as ih =>
    simp only [List.mem_cons, ih, List.length_cons]
    constructor
    · rintro (rfl | ⟨i, hi, hTi⟩)
      · exact ⟨0, by omega, rfl⟩
      · exact ⟨i + 1, by omega, hTi⟩
    · rintro ⟨i, hi, hTi⟩
      cases i with
      | zero => exact Or.inl hTi.symm
      | succ n => exact Or.inr ⟨n, by omega, hTi⟩

/-- C8: on a well-formed running machine with active chain `c`,
`currentState<T>()` is non-null exactly when `T`'s id is the chain's leaf
id, and `activeState<T>()` is non-null exactly when `T`'s id occurs at
some level of the chain; in both cases the returned pointer designates
the live object of that state (modelled by its id), and any mismatch
yields null. -/
theorem c8_current_active (d : FsmStaticData) (c : List StateId) (m : Machine)
    (T : StateId) (hM : MWF d c m) :
    currentState d m T = (if T = lgetI c (c.length - 1) then some T else none) ∧
    activeState d m T = (if T ∈ c then some T else none) := by
  obtain ⟨hchain, hcur, hstack, hobjs, hnone, holen⟩ := hM
  have hcpos : 0 < c.length := List.length_pos.mpr hchain.1
  have hfind_leaf : d.findState (lgetI c (c.length - 1)) =
      some ⟨lgetI c (c.length - 1 - 1), c.length - 1⟩ := hchain.2 _ (by omega)
  have hA : activeStateId m = lgetI c (c.length - 1) := by
    unfold activeStateId
    rw [hcur]
  constructor
  · unfold currentState
    rw [hA, hcur]
    by_cases hT : T = lgetI c (c.length - 1)
    · rw [if_neg (by simp [hT]), if_pos hT]
      dsimp only
      rw [hfind_leaf]
      dsimp only
      rw [hobjs (c.length - 1) (by omega), hT]
    · rw [if_pos (by simpa using hT), if_neg hT]
  · unfold activeState
    rw [hcur]
    dsimp only
    rw [hfind_leaf]
    dsimp only
    cases hft : d.findState T with
    | none =>
      dsimp only
      rw [if_neg (show ¬ T ∈ c from ?_)]
      intro hmem
      obtain ⟨i, hi, hTi⟩ := (mem_iff_lgetI c T).mp hmem
      have h2 := hchain.2 i hi
      rw [hTi, hft] at h2
      exact Option.noConfusion h2
    | some tinfo =>
      dsimp only
      by_cases hmem : T ∈ c
      · obtain ⟨i, hi, hTi⟩ := (mem_iff_lgetI c T).mp hmem
        have h2 := hchain.2 i hi
        rw [hTi, hft] at h2
        have htl : tinfo.level = i := by
          injection h2 with h3
          rw [h3]
        have hstk : lgetI m.stackI tinfo.level = T := by
          rw [htl, hstack i hi, hTi]
        rw [if_neg (show ¬ (c.length - 1 < tinfo.level) by omega)]
        rw [if_neg (show ¬ (lgetI m.stackI tinfo.level ≠ T) from by simp [hstk])]
        rw [htl, hobjs i hi, hTi, if_pos hmem]
      · rw [if_neg hmem]
        rcases Nat.lt_or_ge (c.length - 1) tinfo.level with hl | hl
        · rw [if_pos hl]
        · rw [if_neg (by omega)]
          rw [if_pos (show lgetI m.stackI tinfo.level ≠ T from ?_)]
          intro hEq
          have hstk := hstack tinfo.level (by omega)
          rw [hstk] at hEq
          exact hmem ((mem_iff_lgetI c T).mpr ⟨tinfo.level, by omega, hEq⟩)

theorem c8_witness :
    currentState dEx mEx 1 = (if (1 : StateId) = lgetI cEx (cEx.length - 1) then some 1 else none) ∧
    activeState dEx mEx 1 = (if (1 : StateId) ∈ cEx then some 1 else none) :=
  c8_current_active dEx cEx mEx 1 (by decide)

/-! ### C2: the bubble walk performs no exit or entry and the last
transition request wins -/

theorem VecQueue.push_not_empty (q : VecQueue Event) (e : Event) :
    (q.push e).empty = false := by
  unfold VecQueue.push VecQueue.pushN VecQueue.empty
  dsimp only
  split <;> simp

theorem VecQueue.pushAll_not_empty (q : VecQueue Event) (es : List Event)
    (hq : q.empty = false) : (q.pushAll es).empty = false := by
  induction es generalizing q with
  | nil => exact hq
  | cons e es ih => exact ih (q.push e) (VecQueue.push_not_empty q e)

theorem VecQueue.pushAll_append (q : VecQueue Event) (xs ys : List Event) :
    q.pushAll (xs ++ ys) = (q.pushAll xs).pushAll ys := by
  induction xs generalizing q with
  | nil => rfl
  | cons x xs ih => exact ih (q.push x)

theorem postListF_pushes (H : Handlers) (d : FsmStaticData) :
    ∀ (es : List Event) (m : Machine) (fuel : Nat),
      m.queue.empty = false → es.length + 1 ≤ fuel →
      postListF fuel H d m es =
        some ({ m with queue := m.queue.pushAll es }, []) := by
  intro es
  induction es with
  | nil =>
    intro m fuel hq hfuel
    obtain ⟨g, rfl⟩ : ∃ g, fuel = g + 1 := ⟨fuel - 1, by omega⟩
    rfl
  | cons e es ih =>
    intro m fuel hq hfuel
    obtain ⟨g, rfl⟩ : ∃ g, fuel = g + 1 := ⟨fuel - 1, by omega⟩
    obtain ⟨g', rfl⟩ : ∃ g', g = g' + 1 :=
      ⟨g - 1, by simp only [List.length_cons] at hfuel; omega⟩
    simp only [postListF, postEventF, hq]
    rw [if_neg (show ¬ (false = true) by simp)]
    dsimp only
    rw [ih { m with queue := m.queue.push e } (g' + 1)
      (VecQueue.push_not_empty m.queue e)
      (by simp only [List.length_cons] at hfuel; omega)]
    rfl

theorem bubbleF_walk (H : Handlers) (d : FsmStaticData) (ev : Event)
    (c : List StateId) (PB : Nat)
    (hPB : ∀ s ∈ c, (H s ev).posts.length ≤ PB) :
    ∀ (L : Nat) (m : Machine) (fuel : Nat),
      m.queue.empty = false →
      (∀ i, i ≤ L → ogetI m.objs i = some (lgetI c i)) →
      L < c.length →
      L + PB + 2 ≤ fuel →
      bubbleF fuel H d m ev L =
        some ({ m with
                  nextState := walkReq H ev ((c.take (L + 1)).reverse) m.nextState,
                  queue := m.queue.pushAll (walkPosts H ev ((c.take (L + 1)).reverse)) }, []) := by
  intro L
  induction L with
  | zero =>
    intro m fuel hq hobjs hL hfuel
    obtain ⟨g, rfl⟩ : ∃ g, fuel = g + 1 := ⟨fuel - 1, by omega⟩
    have hmem : lgetI c 0 ∈ c := (mem_iff_lgetI c _).mpr ⟨0, hL, rfl⟩
    have hsplit : ((c.take (0 + 1)).reverse) = lgetI c 0 :: (c.take 0).reverse := by
      rw [take_succ_dget nullStateId c 0 hL]
      simp
    rw [hsplit]
    simp only [bubbleF]
    rw [hobjs 0 (le_refl 0)]
    dsimp only
    cases hreq : (H (lgetI c 0) ev).req with
    | some tgt =>
      dsimp only
      rw [postListF_pushes H d (H (lgetI c 0) ev).posts { m with nextState := tgt } g hq
        (by have := hPB _ hmem; omega)]
      dsimp only
      cases hhand : (H (lgetI c 0) ev).handled with
      | true => simp [walkReq, walkPosts, hreq, hhand]
      | false => simp [walkReq, walkPosts, hreq, hhand]
    | none =>
      dsimp only
      rw [postListF_pushes H d (H (lgetI c 0) ev).posts m g hq
        (by have := hPB _ hmem; omega)]
      dsimp only
      cases hhand : (H (lgetI c 0) ev).handled with
      | true => simp [walkReq, walkPosts, hreq, hhand]
      | false => simp [walkReq, walkPosts, hreq, hhand]
  | succ L' ih =>
    intro m fuel hq hobjs hL hfuel
    obtain ⟨g, rfl⟩ : ∃ g, fuel = g + 1 := ⟨fuel - 1, by omega⟩
    have hmem : lgetI c (L' + 1) ∈ c := (mem_iff_lgetI c _).mpr ⟨L' + 1, hL, rfl⟩
    have hsplit : ((c.take (L' + 1 + 1)).reverse) =
        lgetI c (L' + 1) :: (c.take (L' + 1)).reverse := by
      rw [take_succ_dget nullStateId c (L' + 1) hL]
      simp
    rw [hsplit]
    simp only [bubbleF]
    rw [hobjs (L' + 1) (le_refl _)]
    dsimp only
    cases hreq : (H (lgetI c (L' + 1)) ev).req with
    | some tgt =>
      dsimp only
      rw [postListF_pushes H d (H (lgetI c (L' + 1)) ev).posts { m with nextState := tgt } g hq
        (by have := hPB _ hmem; omega)]
      dsimp only
      cases hhand : (H (lgetI c (L' + 1)) ev).handled with
      | true => simp [walkReq, walkPosts, hreq, hhand]
      | false =>
        rw [if_neg (show ¬ (false = true) by simp),
          if_neg (show ¬ (L' + 1 = 0) by omega)]
        simp only [Nat.add_sub_cancel]
        rw [ih { m with nextState := tgt, queue := m.queue.pushAll (H (lgetI c (L' + 1)) ev).posts } g
          (VecQueue.pushAll_not_empty _ _ hq)
          (fun i hi => hobjs i (by omega)) (by omega) (by omega)]
        simp [walkReq, walkPosts, hreq, hhand, VecQueue.pushAll_append]
    | none =>
      dsimp only
      rw [postListF_pushes H d (H (lgetI c (L' + 1)) ev).posts m g hq
        (by have := hPB _ hmem; omega)]
      dsimp only
      cases hhand : (H (lgetI c (L' + 1)) ev).handled with
      | true => simp [walkReq, walkPosts, hreq, hhand]
      | false =>
        rw [if_neg (show ¬ (false = true) by simp),
          if_neg (show ¬ (L' + 1 = 0) by omega)]
        simp only [Nat.add_sub_cancel]
        rw [ih { m with queue := m.queue.pushAll (H (lgetI c (L' + 1)) ev).posts } g
          (VecQueue.pushAll_not_empty _ _ hq)
          (fun i hi => hobjs i (by omega)) (by omega) (by omega)]
        simp [walkReq, walkPosts, hreq, hhand, VecQueue.pushAll_append]

theorem processEventF_walk (H : Handlers) (d : FsmStaticData) (c : List StateId)
    (m : Machine) (ev : Event) (PB fuel : Nat)
    (hM : MWF d c m) (hq : m.queue.empty = false)
    (hPB : ∀ s ∈ c, (H s ev).posts.length ≤ PB)
    (hfuel : c.length + PB + 2 ≤ fuel) :
    processEventF fuel H d m ev =
      match possiblyDoTransitionF (fuel - 1) d
          { m with nextState := walkReq H ev c.reverse m.nextState,
                   queue := m.queue.pushAll (walkPosts H ev c.reverse) } with
      | none => none
      | some (m2, tr2) => some (m2, Action.dispatch ev :: tr2) := by
  obtain ⟨g, rfl⟩ : ∃ g, fuel = g + 1 := ⟨fuel - 1, by omega⟩
  obtain ⟨hchain, hcur, hstack, hobjs, hnone, holen⟩ := hM
  have hcpos : 0 < c.length := List.length_pos.mpr hchain.1
  have hfind_leaf : d.findState (lgetI c (c.length - 1)) =
      some ⟨lgetI c (c.length - 1 - 1), c.length - 1⟩ := hchain.2 _ (by omega)
  simp only [processEventF, hcur, hfind_leaf]
  try dsimp only
  rw [bubbleF_walk H d ev c PB hPB (c.length - 1) m g hq
    (fun i hi => hobjs i (by omega)) (by omega) (by omega)]
  rw [show c.length - 1 + 1 = c.length by omega, List.take_length]
  rw [hcur]
  simp only [Nat.add_sub_cancel]
  try dsimp only
  cases hpt : possiblyDoTransitionF g d { stackI := m.stackI, objs := m.objs, currentInfo := some (lgetI c (c.length - 1)), nextState := walkReq H ev c.reverse m.nextState, queue := m.queue.pushAll (walkPosts H ev c.reverse) } with
  | none => rfl
  | some p =>
    cases p with
    | mk m2 tr2 => simp

/-- C2: delivering an event to a running machine performs no state exit
or entry while the event bubbles from the innermost state up through its
ancestors: the whole walk only records transition requests (each
`transition` call overwriting the pending target, so the last request
wins - `walkReq` folds the walk) and enqueues posted events; only after
the walk has finished does `possiblyDoTransition` run, on the
last-requested target, and every exit/entry of the dispatch appears in
its trace `tr2`, strictly after the dispatch marker. -/
theorem c2_no_exit_entry_before_walk_ends_last_request_wins
    (H : Handlers) (d : FsmStaticData) (c : List StateId)
    (m : Machine) (ev : Event) (PB fuel : Nat)
    (hM : MWF d c m) (hq : m.queue.empty = false)
    (hPB : ∀ s ∈ c, (H s ev).posts.length ≤ PB)
    (hfuel : c.length + PB + 2 ≤ fuel) :
    processEventF fuel H d m ev =
      match possiblyDoTransitionF (fuel - 1) d
          { m with nextState := walkReq H ev c.reverse m.nextState,
                   queue := m.queue.pushAll (walkPosts H ev c.reverse) } with
      | none => none
      | some (m2, tr2) => some (m2, Action.dispatch ev :: tr2) :=
  processEventF_walk H d c m ev PB fuel hM hq hPB hfuel

theorem c2_witness :
    processEventF 10 HEx dEx mEx7 7 =
      match possiblyDoTransitionF (10 - 1) dEx
          { mEx7 with nextState := walkReq HEx 7 cEx.reverse mEx7.nextState,
                      queue := mEx7.queue.pushAll (walkPosts HEx 7 cEx.reverse) } with
      | none => none
      | some (m2, tr2) => some (m2, Action.dispatch 7 :: tr2) :=
  c2_no_exit_entry_before_walk_ends_last_request_wins HEx dEx cEx mEx7 7 1 10
    (by decide) (by decide) (by decide) (by decide)


/-! ### C3: FIFO dispatch order and run-to-completion -/

theorem VecQueue.abs_pushAll (q : VecQueue Event) (es : List Event) (hI : VecQueue.QInv q) :
    (q.pushAll es).abs = q.abs ++ es := by
  induction es generalizing q with
  | nil => simp [VecQueue.pushAll]
  | cons e es ih =>
    show (VecQueue.pushAll (q.push e) es).abs = _
    rw [ih (q.push e) (VecQueue.qinv_push q e hI), VecQueue.abs_push q e hI]
    simp

theorem VecQueue.qinv_pushAll (q : VecQueue Event) (es : List Event) (hI : VecQueue.QInv q) :
    VecQueue.QInv (q.pushAll es) := by
  induction es generalizing q with
  | nil => exact hI
  | cons e es ih => exact ih (q.push e) (VecQueue.qinv_push q e hI)

theorem VecQueue.not_empty_of_abs_cons {α : Type} (q : VecQueue α) (e : α) (l : List α)
    (h : q.abs = e :: l) : q.empty = false := by
  unfold VecQueue.empty
  cases hs : q.store with
  | nil =>
    unfold VecQueue.abs at h
    rw [hs] at h
    simp at h
  | cons a as => simp

theorem doExit_queue (d : FsmStaticData) (m : Machine) (cur : StateId)
    (m' : Machine) (tr : List Action) (h : doExit d m cur = some (m', tr)) :
    m'.queue = m.queue := by
  unfold doExit at h
  cases hfi : d.findState cur with
  | none => simp only [hfi] at h; exact Option.noConfusion h
  | some info =>
    simp only [hfi, Option.some.injEq, Prod.mk.injEq] at h
    obtain ⟨rfl, rfl⟩ := h
    rfl

theorem doEntry_queue (d : FsmStaticData) (m : Machine) (newId : StateId)
    (m' : Machine) (tr : List Action) (h : doEntry d m newId = some (m', tr)) :
    m'.queue = m.queue := by
  unfold doEntry at h
  cases hfi : d.findState newId with
  | none => simp only [hfi] at h; exact Option.noConfusion h
  | some info =>
    simp only [hfi, Option.some.injEq, Prod.mk.injEq] at h
    obtain ⟨rfl, rfl⟩ := h
    rfl

theorem exitDownTo_queue : ∀ (fuel : Nat) (d : FsmStaticData) (tl : Nat)
    (m m' : Machine) (tr : List Action),
    exitDownTo fuel d tl m = some (m', tr) → m'.queue = m.queue := by
  intro fuel
  induction fuel with
  | zero => intro d tl m m' tr h; simp [exitDownTo] at h
  | succ f ih =>
    intro d tl m m' tr h
    simp only [exitDownTo] at h
    cases hcur : m.currentInfo with
    | none => simp only [hcur] at h; exact Option.noConfusion h
    | some cur =>
      simp only [hcur] at h
      cases hfi : d.findState cur with
      | none => simp only [hfi] at h; exact Option.noConfusion h
      | some info =>
        simp only [hfi] at h
        by_cases hlt : tl < info.level
        · rw [if_pos hlt] at h
          cases hE : doExit d m cur with
          | none => simp only [hE] at h; exact Option.noConfusion h
          | some p1 =>
            obtain ⟨m1, tr1⟩ := p1
            simp only [hE] at h
            cases hR : exitDownTo f d tl { m1 with currentInfo := some (lgetI m1.stackI (info.level - 1)) } with
            | none => simp only [hR] at h; exact Option.noConfusion h
            | some p2 =>
              obtain ⟨m3, tr2⟩ := p2
              simp only [hR, Option.some.injEq, Prod.mk.injEq] at h
              obtain ⟨rfl, rfl⟩ := h
              exact (ih d tl _ m3 tr2 hR).trans (doExit_queue d m cur m1 tr1 hE)
        · rw [if_neg hlt] at h
          simp only [Option.some.injEq, Prod.mk.injEq] at h
          obtain ⟨rfl, rfl⟩ := h
          rfl

theorem lowerNext_queue : ∀ (fuel : Nat) (d : FsmStaticData) (cl : Nat)
    (next : StateId) (m : Machine) (n' : StateId) (m' : Machine),
    lowerNext fuel d cl next m = some (n', m') → m'.queue = m.queue := by
  intro fuel
  induction fuel with
  | zero => intro d cl next m n' m' h; simp [lowerNext] at h
  | succ f ih =>
    intro d cl next m n' m' h
    simp only [lowerNext] at h
    cases hfi : d.findState next with
    | none => simp only [hfi] at h; exact Option.noConfusion h
    | some info =>
      simp only [hfi] at h
      by_cases hlt : cl < info.level
      · rw [if_pos hlt] at h
        exact ih d cl info.parentId { m with stackI := m.stackI.set info.level next } n' m' h
      · rw [if_neg hlt] at h
        simp only [Option.some.injEq, Prod.mk.injEq] at h
        obtain ⟨rfl, rfl⟩ := h
        rfl

theorem descendBoth_queue : ∀ (fuel : Nat) (d : FsmStaticData) (level : Nat)
    (next : StateId) (m : Machine) (n' : StateId) (m' : Machine) (tr : List Action),
    descendBoth fuel d level next m = some (n', m', tr) → m'.queue = m.queue := by
  intro fuel
  induction fuel with
  | zero => intro d level next m n' m' tr h; simp [descendBoth] at h
  | succ f ih =>
    intro d level next m n' m' tr h
    simp only [descendBoth] at h
    cases hcur : m.currentInfo with
    | none => simp only [hcur] at h; exact Option.noConfusion h
    | some cur =>
      simp only [hcur] at h
      by_cases hc : next ≠ cur ∧ 0 < level
      · rw [if_pos hc] at h
        cases hE : doExit d m cur with
        | none => simp only [hE] at h; exact Option.noConfusion h
        | some p1 =>
          obtain ⟨m1, tr1⟩ := p1
          simp only [hE] at h
          cases hfi : d.findState next with
          | none => simp only [hfi] at h; exact Option.noConfusion h
          | some ninfo =>
            simp only [hfi] at h
            cases hR : descendBoth f d (level - 1) ninfo.parentId { m1 with stackI := m1.stackI.set level next, currentInfo := some (lgetI (m1.stackI.set level next) (level - 1)) } with
            | none => simp only [hR] at h; exact Option.noConfusion h
            | some p2 =>
              obtain ⟨nf, p3⟩ := p2
              obtain ⟨m4, tr2⟩ := p3
              simp only [hR, Option.some.injEq, Prod.mk.injEq] at h
              obtain ⟨rfl, rfl, rfl⟩ := h
              exact (ih d (level - 1) ninfo.parentId _ nf m4 tr2 hR).trans
                (doExit_queue d m cur m1 tr1 hE)
      · rw [if_neg hc] at h
        simp only [Option.some.injEq, Prod.mk.injEq] at h
        obtain ⟨rfl, rfl, rfl⟩ := h
        rfl

theorem entryUp_queue : ∀ (fuel : Nat) (d : FsmStaticData) (tl : Nat)
    (m m' : Machine) (tr : List Action),
    entryUp fuel d tl m = some (m', tr) → m'.queue = m.queue := by
  intro fuel
  induction fuel with
  | zero => intro d tl m m' tr h; simp [entryUp] at h
  | succ f ih =>
    intro d tl m m' tr h
    simp only [entryUp] at h
    cases hcur : m.currentInfo with
    | none => simp only [hcur] at h; exact Option.noConfusion h
    | some cur =>
      simp only [hcur] at h
      cases hfi : d.findState cur with
      | none => simp only [hfi] at h; exact Option.noConfusion h
      | some info =>
        simp only [hfi] at h
        by_cases hlt : info.level < tl
        · rw [if_pos hlt] at h
          cases hE : doEntry d { m with currentInfo := some (lgetI m.stackI (info.level + 1)) } (lgetI m.stackI (info.level + 1)) with
          | none => simp only [hE] at h; exact Option.noConfusion h
          | some p1 =>
            obtain ⟨m2, tr1⟩ := p1
            simp only [hE] at h
            cases hR : entryUp f d tl m2 with
            | none => simp only [hR] at h; exact Option.noConfusion h
            | some p2 =>
              obtain ⟨m3, tr2⟩ := p2
              simp only [hR, Option.some.injEq, Prod.mk.injEq] at h
              obtain ⟨rfl, rfl⟩ := h
              exact (ih d tl m2 m3 tr2 hR).trans (doEntry_queue d { m with currentInfo := some (lgetI m.stackI (info.level + 1)) } _ m2 tr1 hE)
        · rw [if_neg hlt] at h
          simp only [Option.some.injEq, Prod.mk.injEq] at h
          obtain ⟨rfl, rfl⟩ := h
          rfl

theorem doTransitionF_queue (fuel : Nat) (d : FsmStaticData) (next : StateId)
    (m m' : Machine) (tr : List Action)
    (h : doTransitionF fuel d next m = some (m', tr)) : m'.queue = m.queue := by
  unfold doTransitionF at h
  cases hn : d.findState next with
  | none => simp only [hn] at h; exact Option.noConfusion h
  | some ninfo =>
    simp only [hn] at h
    cases hcur : m.currentInfo with
    | none => simp only [hcur] at h; exact Option.noConfusion h
    | some cur =>
      simp only [hcur] at h
      by_cases heq : cur = next
      · rw [if_pos heq] at h
        cases hE : doExit d m cur with
        | none => simp only [hE] at h; exact Option.noConfusion h
        | some p1 =>
          obtain ⟨m1, tr1⟩ := p1
          simp only [hE] at h
          cases hN : doEntry d m1 cur with
          | none => simp only [hN] at h; exact Option.noConfusion h
          | some p2 =>
            obtain ⟨m2, tr2⟩ := p2
            simp only [hN, Option.some.injEq, Prod.mk.injEq] at h
            obtain ⟨rfl, rfl⟩ := h
            exact (doEntry_queue d m1 cur m2 tr2 hN).trans (doExit_queue d m cur m1 tr1 hE)
      · rw [if_neg heq] at h
        cases h1 : exitDownTo fuel d ninfo.level m with
        | none => simp only [h1] at h; exact Option.noConfusion h
        | some p1 =>
          obtain ⟨m1, tr1⟩ := p1
          simp only [h1] at h
          cases hc1 : m1.currentInfo with
          | none => simp only [hc1] at h; exact Option.noConfusion h
          | some c1 =>
            simp only [hc1] at h
            cases hf1 : d.findState c1 with
            | none => simp only [hf1] at h; exact Option.noConfusion h
            | some c1info =>
              simp only [hf1] at h
              cases h2 : lowerNext fuel d c1info.level next m1 with
              | none => simp only [h2] at h; exact Option.noConfusion h
              | some p2 =>
                obtain ⟨n2, m2⟩ := p2
                simp only [h2] at h
                cases h3 : descendBoth fuel d c1info.level n2 m2 with
                | none => simp only [h3] at h; exact Option.noConfusion h
                | some p3 =>
                  obtain ⟨n3, p3b⟩ := p3
                  obtain ⟨m3, tr3⟩ := p3b
                  simp only [h3] at h
                  cases hc3 : m3.currentInfo with
                  | none => simp only [hc3] at h; exact Option.noConfusion h
                  | some c3 =>
                    simp only [hc3] at h
                    have hq3 : m3.queue = m.queue :=
                      (descendBoth_queue fuel d c1info.level n2 m2 n3 m3 tr3 h3).trans
                        ((lowerNext_queue fuel d c1info.level next m1 n2 m2 h2).trans
                          (exitDownTo_queue fuel d ninfo.level m m1 tr1 h1))
                    by_cases hne : n3 ≠ c3
                    · rw [if_pos hne] at h
                      cases hE4 : doExit d m3 c3 with
                      | none => simp only [hE4] at h; exact Option.noConfusion h
                      | some p4 =>
                        obtain ⟨m4a, tr4a⟩ := p4
                        simp only [hE4] at h
                        cases hN4 : doEntry d { m4a with stackI := m4a.stackI.set 0 n3, currentInfo := some n3 } n3 with
                        | none => simp only [hN4] at h; exact Option.noConfusion h
                        | some p5 =>
                          obtain ⟨m4c, tr4b⟩ := p5
                          simp only [hN4] at h
                          cases h5 : entryUp fuel d ninfo.level m4c with
                          | none => simp only [h5] at h; exact Option.noConfusion h
                          | some p6 =>
                            obtain ⟨m5, tr5⟩ := p6
                            simp only [h5, Option.some.injEq, Prod.mk.injEq] at h
                            obtain ⟨rfl, rfl⟩ := h
                            have hq4 : m4c.queue = m3.queue :=
                              (doEntry_queue d { m4a with stackI := m4a.stackI.set 0 n3, currentInfo := some n3 } n3 m4c tr4b hN4).trans
                                (doExit_queue d m3 c3 m4a tr4a hE4)
                            exact (entryUp_queue fuel d ninfo.level m4c m5 tr5 h5).trans
                              (hq4.trans hq3)
                    · rw [if_neg hne] at h
                      cases h5 : entryUp fuel d ninfo.level m3 with
                      | none => simp only [h5] at h; exact Option.noConfusion h
                      | some p6 =>
                        obtain ⟨m5, tr5⟩ := p6
                        simp only [h5, Option.some.injEq, Prod.mk.injEq] at h
                        obtain ⟨rfl, rfl⟩ := h
                        exact (entryUp_queue fuel d ninfo.level m3 m5 tr5 h5).trans hq3

theorem possiblyDoTransitionF_queue : ∀ (fuel : Nat) (d : FsmStaticData)
    (m m' : Machine) (tr : List Action),
    possiblyDoTransitionF fuel d m = some (m', tr) → m'.queue = m.queue := by
  intro fuel
  induction fuel with
  | zero => intro d m m' tr h; simp [possiblyDoTransitionF] at h
  | succ f ih =>
    intro d m m' tr h
    simp only [possiblyDoTransitionF] at h
    by_cases hns : m.nextState ≠ nullStateId
    · rw [if_pos hns] at h
      cases hfi : d.findState m.nextState with
      | none =>
        simp only [hfi] at h
        cases hR : possiblyDoTransitionF f d { m with nextState := nullStateId } with
        | none => simp only [hR] at h; exact Option.noConfusion h
        | some p =>
          obtain ⟨m3, tr2⟩ := p
          simp only [hR, Option.some.injEq, Prod.mk.injEq] at h
          obtain ⟨rfl, rfl⟩ := h
          exact ih d { m with nextState := nullStateId } m3 tr2 hR
      | some info =>
        simp only [hfi] at h
        cases hT : doTransitionF f d m.nextState { m with nextState := nullStateId } with
        | none => simp only [hT] at h; exact Option.noConfusion h
        | some p =>
          obtain ⟨m2, tr1⟩ := p
          simp only [hT] at h
          cases hR : possiblyDoTransitionF f d m2 with
          | none => simp only [hR] at h; exact Option.noConfusion h
          | some p2 =>
            obtain ⟨m3, tr2⟩ := p2
            simp only [hR, Option.some.injEq, Prod.mk.injEq] at h
            obtain ⟨rfl, rfl⟩ := h
            exact (ih d m2 m3 tr2 hR).trans
              (doTransitionF_queue f d m.nextState { m with nextState := nullStateId } m2 tr1 hT)
    · rw [if_neg hns] at h
      simp only [Option.some.injEq, Prod.mk.injEq] at h
      obtain ⟨rfl, rfl⟩ := h
      rfl

/-- C3: events are dispatched in FIFO order. With event `ev` at the front
of the queue and `rest` behind it, `processQueue` dispatches `ev` first;
the transition triggered by `ev` is fully applied (its whole exit/entry
trace `tr2` sits before anything of the recursive drain `tr3`, which
dispatches the next event only then); the transition machinery never
touches the queue; and the queue passed to the drain after `ev` is popped
holds exactly `rest` followed by the events `ev`'s handlers posted, so
reentrant posts are appended behind every already-queued event. -/
theorem c3_fifo_run_to_completion (H : Handlers) (d : FsmStaticData)
    (c : List StateId) (m : Machine) (ev : Event) (rest : List Event) (PB n : Nat)
    (hM : MWF d c m) (hI : VecQueue.QInv m.queue)
    (habs : m.queue.abs = ev :: rest)
    (hPB : ∀ s ∈ c, (H s ev).posts.length ≤ PB)
    (hfuel : c.length + PB + 2 ≤ n + 1) :
    processQueueF (n + 2) H d m =
      (match possiblyDoTransitionF n d { m with nextState := walkReq H ev c.reverse m.nextState, queue := m.queue.pushAll (walkPosts H ev c.reverse) } with
       | none => none
       | some (m2, tr2) =>
         match processQueueF (n + 1) H d { m2 with queue := m2.queue.pop } with
         | none => none
         | some (m3, tr3) => some (m3, (Action.dispatch ev :: tr2) ++ tr3)) ∧
    (∀ m2 tr2,
      possiblyDoTransitionF n d { m with nextState := walkReq H ev c.reverse m.nextState, queue := m.queue.pushAll (walkPosts H ev c.reverse) } = some (m2, tr2) →
      m2.queue.pop.abs = rest ++ walkPosts H ev c.reverse ∧
        VecQueue.QInv m2.queue.pop) := by
  have hq : m.queue.empty = false := VecQueue.not_empty_of_abs_cons m.queue ev rest habs
  have hfront : m.queue.front? = some ev := by
    rw [VecQueue.front?_eq_head?_abs, habs]
    rfl
  constructor
  · simp only [processQueueF, hq, hfront]
    rw [if_neg (show ¬ (false = true) by simp)]
    try dsimp only
    rw [processEventF_walk H d c m ev PB (n + 1) hM hq hPB (by omega)]
    simp only [Nat.add_sub_cancel]
    cases hpt : possiblyDoTransitionF n d { m with nextState := walkReq H ev c.reverse m.nextState, queue := m.queue.pushAll (walkPosts H ev c.reverse) } with
    | none => rfl
    | some p =>
      obtain ⟨m2, tr2⟩ := p
      rfl
  · intro m2 tr2 hpt
    have hqpres : m2.queue = m.queue.pushAll (walkPosts H ev c.reverse) :=
      possiblyDoTransitionF_queue n d _ m2 tr2 hpt
    have hIW : VecQueue.QInv (m.queue.pushAll (walkPosts H ev c.reverse)) :=
      VecQueue.qinv_pushAll m.queue _ hI
    have hqW : (m.queue.pushAll (walkPosts H ev c.reverse)).empty = false :=
      VecQueue.pushAll_not_empty m.queue _ hq
    have habsW : (m.queue.pushAll (walkPosts H ev c.reverse)).abs =
        ev :: (rest ++ walkPosts H ev c.reverse) := by
      rw [VecQueue.abs_pushAll m.queue _ hI, habs]
      rfl
    constructor
    · rw [hqpres, VecQueue.abs_pop _ hIW hqW, habsW]
      rfl
    · rw [hqpres]
      exact VecQueue.qinv_pop _ hIW hqW

theorem c3_witness :
    (processQueueF 7 HEx dEx mEx8 =
      (match possiblyDoTransitionF 5 dEx { mEx8 with nextState := walkReq HEx 8 cEx.reverse mEx8.nextState, queue := mEx8.queue.pushAll (walkPosts HEx 8 cEx.reverse) } with
       | none => none
       | some (m2, tr2) =>
         match processQueueF 6 HEx dEx { m2 with queue := m2.queue.pop } with
         | none => none
         | some (m3, tr3) => some (m3, (Action.dispatch 8 :: tr2) ++ tr3)) ∧
    (∀ m2 tr2,
      possiblyDoTransitionF 5 dEx { mEx8 with nextState := walkReq HEx 8 cEx.reverse mEx8.nextState, queue := mEx8.queue.pushAll (walkPosts HEx 8 cEx.reverse) } = some (m2, tr2) →
      m2.queue.pop.abs = [] ++ walkPosts HEx 8 cEx.reverse ∧
        VecQueue.QInv m2.queue.pop)) :=
  c3_fifo_run_to_completion HEx dEx cEx mEx8 8 [] 1 5
    (by decide) (by left; decide) (by decide) (by decide) (by decide)

end StateChart
